import Mathlib

/-!
# kube-hw-tagger: key normalisation, label reconciliation and the watcher loop

A shallow embedding of `watcher.go` and `node.go`.

* Go strings are byte sequences (`GoString`); `len`, slicing and
  `strings.HasPrefix` act on bytes, `regexp` acts on UTF-8 decoded runes.
* Go maps are association lists read by first match; a `range` loop is a
  fold over the keys in the order the list holds them, and the theorems
  quantify over every such list, hence over every iteration order.
* A Go panic is the result `none`.
-/

namespace KubeHwTagger

/-- One byte of a Go string. -/
abbrev Byte := Fin 256

/-- Go `string`: an immutable sequence of bytes, not necessarily valid UTF-8. -/
abbrev GoString := List Byte

/-- The bytes of an ASCII literal. -/
def ascii (s : String) : GoString := s.toList.map (fun c => Fin.ofNat c.toNat)

/-! ## unicode/utf8 -/

/-- Value of `utf8.RuneError`. -/
def RuneError : Nat := 0xFFFD

/-- Go's `first` table joined with `acceptRanges`: for a leading byte of a
multi-byte sequence, the sequence length and the accepted range of the second
byte; `none` for the bytes marked `xx` (0x80-0xC1, 0xF5-0xFF). ASCII bytes are
handled before the table is consulted. -/
def firstInfo (s0 : Nat) : Option (Nat × Nat × Nat) :=
  if 0xC2 ≤ s0 ∧ s0 ≤ 0xDF then some (2, 0x80, 0xBF)
  else if s0 = 0xE0 then some (3, 0xA0, 0xBF)
  else if 0xE1 ≤ s0 ∧ s0 ≤ 0xEC then some (3, 0x80, 0xBF)
  else if s0 = 0xED then some (3, 0x80, 0x9F)
  else if 0xEE ≤ s0 ∧ s0 ≤ 0xEF then some (3, 0x80, 0xBF)
  else if s0 = 0xF0 then some (4, 0x90, 0xBF)
  else if 0xF1 ≤ s0 ∧ s0 ≤ 0xF3 then some (4, 0x80, 0xBF)
  else if s0 = 0xF4 then some (4, 0x80, 0x8F)
  else none

/-- Go `utf8.DecodeRuneInString`: the first rune of `s` and its width in
bytes; `(RuneError, 1)` for an invalid or truncated encoding, `(RuneError, 0)`
for the empty string. -/
def DecodeRuneInString (s : GoString) : Nat × Nat :=
  match s with
  | [] => (RuneError, 0)
  | s0 :: rest =>
    if s0.val < 0x80 then (s0.val, 1)
    else
      match firstInfo s0.val with
      | none => (RuneError, 1)
      | some (sz, lo, hi) =>
        if rest.length + 1 < sz then (RuneError, 1)
        else
          match rest with
          | [] => (RuneError, 1)
          | s1 :: rest1 =>
            if s1.val < lo ∨ hi < s1.val then (RuneError, 1)
            else if sz ≤ 2 then
              (((s0.val &&& 0x1F) <<< 6) ||| (s1.val &&& 0x3F), 2)
            else
              match rest1 with
              | [] => (RuneError, 1)
              | s2 :: rest2 =>
                if s2.val < 0x80 ∨ 0xBF < s2.val then (RuneError, 1)
                else if sz ≤ 3 then
                  (((s0.val &&& 0x0F) <<< 12) ||| ((s1.val &&& 0x3F) <<< 6)
                    ||| (s2.val &&& 0x3F), 3)
                else
                  match rest2 with
                  | [] => (RuneError, 1)
                  | s3 :: _ =>
                    if s3.val < 0x80 ∨ 0xBF < s3.val then (RuneError, 1)
                    else
                      (((s0.val &&& 0x07) <<< 18) ||| ((s1.val &&& 0x3F) <<< 12)
                        ||| ((s2.val &&& 0x3F) <<< 6) ||| (s3.val &&& 0x3F), 4)

/-! ## regexp -/

/-- Membership of a rune in the character class of
`invalidChars = regexp.MustCompile("[^-A-Za-z0-9_.]")`. -/
def invalidChars (r : Nat) : Bool :=
  !(r = 0x2D || (0x41 ≤ r && r ≤ 0x5A) || (0x61 ≤ r && r ≤ 0x7A)
    || (0x30 ≤ r && r ≤ 0x39) || r = 0x5F || r = 0x2E)

/-- The scan of `invalidChars.ReplaceAllString(s, "-")`: at each position the
next rune is decoded; a rune of the class is one match and is replaced by
`-`, any other rune is copied. `fuel` bounds the number of runes scanned. -/
def replaceLoop : Nat → GoString → GoString
  | 0, _ => []
  | _ + 1, [] => []
  | fuel + 1, s0 :: rest =>
    let rw := DecodeRuneInString (s0 :: rest)
    if invalidChars rw.1 then
      (0x2D : Byte) :: replaceLoop fuel ((s0 :: rest).drop rw.2)
    else
      (s0 :: rest).take rw.2 ++ replaceLoop fuel ((s0 :: rest).drop rw.2)

/-- The call `invalidChars.ReplaceAllString(s, "-")`. Every rune is at least
one byte wide, so `len(s)` steps reach the end of `s`. -/
def ReplaceAllString (s : GoString) : GoString := replaceLoop s.length s

/-! ## crypto/sha1 -/

/-- Go `bits.RotateLeft32` on a 32-bit word. -/
def rotl32 (x n : Nat) : Nat := ((x <<< n) ||| (x >>> (32 - n))) % 2 ^ 32

/-- Big-endian 32-bit word of four bytes. -/
def be32 (a b c d : Nat) : Nat := (a <<< 24) ||| (b <<< 16) ||| (c <<< 8) ||| d

/-- The four big-endian bytes of a 32-bit word. -/
def wordBytes (w : Nat) : GoString :=
  [Fin.ofNat (w >>> 24), Fin.ofNat (w >>> 16), Fin.ofNat (w >>> 8), Fin.ofNat w]

/-- The SHA-1 chaining value `h0..h4`. -/
structure Digest where
  h0 : Nat
  h1 : Nat
  h2 : Nat
  h3 : Nat
  h4 : Nat
deriving DecidableEq

/-- Initial chaining value of SHA-1. -/
def sha1Init : Digest :=
  ⟨0x67452301, 0xEFCDAB89, 0x98BADCFE, 0x10325476, 0xC3D2E1F0⟩

/-- The sixteen message words of one 64-byte block. -/
def blockWords : List Nat → List Nat
  | a :: b :: c :: d :: rest => be32 a b c d :: blockWords rest
  | _ => []

/-- Extends the message schedule by `n` words; `ws` holds the words computed
so far, most recent first. -/
def extendSchedule : Nat → List Nat → List Nat
  | 0, ws => ws
  | n + 1, ws =>
    let w := rotl32 ((ws.getD 2 0) ^^^ (ws.getD 7 0) ^^^ (ws.getD 13 0) ^^^ (ws.getD 15 0)) 1
    extendSchedule n (w :: ws)

/-- Round function and constant of SHA-1 round `i`. -/
def roundFK (i b c d : Nat) : Nat × Nat :=
  if i < 20 then (((b &&& c) ||| ((b ^^^ 0xFFFFFFFF) &&& d)), 0x5A827999)
  else if i < 40 then (b ^^^ c ^^^ d, 0x6ED9EBA1)
  else if i < 60 then ((((b ||| c) &&& d) ||| (b &&& c)), 0x8F1BBCDC)
  else (b ^^^ c ^^^ d, 0xCA62C1D6)

/-- The eighty rounds over the schedule `ws` (in order), from round `i`. -/
def rounds : List Nat → Nat → Digest → Digest
  | [], _, st => st
  | w :: ws, i, ⟨a, b, c, d, e⟩ =>
    let fk := roundFK i b c d
    let t := (rotl32 a 5 + fk.1 + e + w + fk.2) % 2 ^ 32
    rounds ws (i + 1) ⟨t, a, rotl32 b 30, c, d⟩

/-- Compression of one 64-byte block into the chaining value. -/
def sha1Block (h : Digest) (block : List Nat) : Digest :=
  let ws := (extendSchedule 64 (blockWords block).reverse).reverse
  let r := rounds ws 0 h
  ⟨(h.h0 + r.h0) % 2 ^ 32, (h.h1 + r.h1) % 2 ^ 32, (h.h2 + r.h2) % 2 ^ 32,
   (h.h3 + r.h3) % 2 ^ 32, (h.h4 + r.h4) % 2 ^ 32⟩

/-- Feeds the padded message, 64 bytes at a time. -/
def sha1Blocks : Nat → Digest → List Nat → Digest
  | 0, h, _ => h
  | n + 1, h, msg => sha1Blocks n (sha1Block h (msg.take 64)) (msg.drop 64)

/-- SHA-1 padding: `0x80`, zeros up to 56 modulo 64, the bit length as a
64-bit big-endian integer. -/
def sha1Pad (msg : List Nat) : List Nat :=
  let len := msg.length
  let zeros := (55 + 64 - len % 64) % 64
  let bits := 8 * len
  msg ++ [0x80] ++ List.replicate zeros 0
    ++ (List.range 8).map (fun i => (bits >>> (8 * (7 - i))) % 256)

/-- Go `sha1.Sum`: the 20-byte SHA-1 digest of `data`. -/
def Sum (data : GoString) : GoString :=
  let padded := sha1Pad (data.map Fin.val)
  let h := sha1Blocks (padded.length / 64) sha1Init padded
  wordBytes h.h0 ++ wordBytes h.h1 ++ wordBytes h.h2 ++ wordBytes h.h3 ++ wordBytes h.h4

/-! ## encoding/base32 -/

/-- Character `i` of the standard base-32 alphabet `A-Z2-7`. -/
def encodeStd (i : Nat) : Byte :=
  if i % 32 < 26 then Fin.ofNat (0x41 + i % 32) else Fin.ofNat (0x32 + (i % 32 - 26))

/-- Go `base32.StdEncoding.EncodeToString`: five bytes give eight characters,
a shorter final group is padded with `=`. -/
def EncodeToString : GoString → GoString
  | [] => []
  | [a] =>
    [encodeStd (a.val >>> 3), encodeStd ((a.val <<< 2) &&& 0x1F),
     0x3D, 0x3D, 0x3D, 0x3D, 0x3D, 0x3D]
  | [a, b] =>
    [encodeStd (a.val >>> 3), encodeStd (((a.val <<< 2) &&& 0x1F) ||| (b.val >>> 6)),
     encodeStd ((b.val >>> 1) &&& 0x1F), encodeStd ((b.val <<< 4) &&& 0x1F),
     0x3D, 0x3D, 0x3D, 0x3D]
  | [a, b, c] =>
    [encodeStd (a.val >>> 3), encodeStd (((a.val <<< 2) &&& 0x1F) ||| (b.val >>> 6)),
     encodeStd ((b.val >>> 1) &&& 0x1F),
     encodeStd (((b.val <<< 4) &&& 0x1F) ||| ((c.val >>> 4) &&& 0x1F)),
     encodeStd ((c.val <<< 1) &&& 0x1F), 0x3D, 0x3D, 0x3D]
  | [a, b, c, d] =>
    [encodeStd (a.val >>> 3), encodeStd (((a.val <<< 2) &&& 0x1F) ||| (b.val >>> 6)),
     encodeStd ((b.val >>> 1) &&& 0x1F),
     encodeStd (((b.val <<< 4) &&& 0x1F) ||| ((c.val >>> 4) &&& 0x1F)),
     encodeStd (((c.val <<< 1) &&& 0x1F) ||| (d.val >>> 7)),
     encodeStd ((d.val >>> 2) &&& 0x1F), encodeStd ((d.val <<< 3) &&& 0x1F), 0x3D]
  | a :: b :: c :: d :: e :: rest =>
    [encodeStd (a.val >>> 3), encodeStd (((a.val <<< 2) &&& 0x1F) ||| (b.val >>> 6)),
     encodeStd ((b.val >>> 1) &&& 0x1F),
     encodeStd (((b.val <<< 4) &&& 0x1F) ||| ((c.val >>> 4) &&& 0x1F)),
     encodeStd (((c.val <<< 1) &&& 0x1F) ||| (d.val >>> 7)),
     encodeStd ((d.val >>> 2) &&& 0x1F),
     encodeStd (((d.val <<< 3) &&& 0x1F) ||| (e.val >>> 5)),
     encodeStd (e.val &&& 0x1F)] ++ EncodeToString rest

/-! ## strings -/

/-- Go `strings.ToLower` on an ASCII string (the only use is on base-32
output): `A-Z` are mapped to `a-z`, every other byte is kept. -/
def ToLower (s : GoString) : GoString :=
  s.map (fun b => if 0x41 ≤ b.val ∧ b.val ≤ 0x5A then Fin.ofNat (b.val + 0x20) else b)

/-- Go `strings.HasPrefix`. -/
def HasPrefix (s pfx : GoString) : Bool := pfx.isPrefixOf s

/-- The split at the first `/`: the text before it and the text after it,
`none` when `s` holds no `/`. -/
def cutSlash : GoString → Option (GoString × GoString)
  | [] => none
  | b :: rest =>
    if b = (0x2F : Byte) then some ([], rest)
    else
      match cutSlash rest with
      | none => none
      | some (x, y) => some (b :: x, y)

/-- Go `strings.SplitN(s, "/", 2)`. -/
def SplitN (s : GoString) : List GoString :=
  match cutSlash s with
  | none => [s]
  | some (x, y) => [x, y]

/-- A Go slice expression `s[lo:hi]`; `none` is the out-of-range panic. -/
def slice (s : GoString) (lo hi : Nat) : Option GoString :=
  if lo ≤ hi ∧ hi ≤ s.length then some ((s.take hi).drop lo) else none

/-! ## watcher.go: validKey -/

/-- The body of `validKey` once `parts[0]` and `parts[1]` are known. -/
def validName (name : GoString) : Option GoString :=
  if 63 < name.length then
    match slice (EncodeToString (Sum name)) 0 5, slice name 0 (63 - 5 - 1) with
    | some suffix, some head =>
      some (ReplaceAllString (head ++ ascii "-" ++ ToLower suffix))
    | _, _ => none
  else some (ReplaceAllString name)

/-- Go `validKey` of `watcher.go`; `none` is the index panic of `parts[1]` on
a key without `/`. -/
def validKey (key : GoString) : Option GoString :=
  match SplitN key with
  | [p0, p1] =>
    match validName p1 with
    | some name => some (p0 ++ ascii "/" ++ name)
    | none => none
  | _ => none

/-! ## Go maps -/

/-- The read `v, ok := m[k]` of a Go map: the first entry with key `k`. -/
def mapGet {β : Type} : List (GoString × β) → GoString → Option β
  | [], _ => none
  | (k', v) :: rest, k => if k' = k then some v else mapGet rest k

/-- Go `delete(m, k)`. -/
def mapDelete {β : Type} (m : List (GoString × β)) (k : GoString) : List (GoString × β) :=
  m.filter (fun e => decide (e.1 ≠ k))

/-- The assignment `m[k] = v` of a Go map. -/
def mapSet {β : Type} (m : List (GoString × β)) (k : GoString) (v : β) :
    List (GoString × β) :=
  (k, v) :: mapDelete m k

/-- Go `map[string]string` holding entries (a non-nil map). -/
abbrev Labels := List (GoString × GoString)

/-- Go `map[string]bool`, the type of `knownKeys` and of the `keys` argument
of `nodeUpdateLabels`. -/
abbrev KeySet := List (GoString × Bool)

/-- The read `keys[key]` of a `map[string]bool`: `false` for an absent key. -/
def keysGet (keys : KeySet) (key : GoString) : Bool := (mapGet keys key).getD false

/-! ## node.go -/

/-- The label store of the cluster as far as this host is concerned, with a
record of the calls made to it. `store = none` is a node whose `Labels` map
is nil. -/
structure World where
  /-- Labels of the node, as `knodes.Get` returns them. -/
  store : Option Labels
  /-- Number of calls of `nodeUpdateLabels` (each starts with `knodes.Get`). -/
  calls : Nat
  /-- The label maps sent by `knodes.Update`, most recent first. -/
  updates : List Labels
deriving DecidableEq

/-- First loop of `nodeUpdateLabels` (node.go 35-45), over the keys that
`range node.Labels` yields: a label under `pfx` that is not in `keys` is
deleted and `update` is set. -/
def removeLoop (pfx : GoString) (keys : KeySet) :
    List GoString → Labels × Bool → Labels × Bool
  | [], st => st
  | key :: ks, (labels, update) =>
    if !HasPrefix key pfx then removeLoop pfx keys ks (labels, update)
    else if keysGet keys key then removeLoop pfx keys ks (labels, update)
    else removeLoop pfx keys ks (mapDelete labels key, true)

/-- Second loop of `nodeUpdateLabels` (node.go 47-57), over the keys that
`range keys` yields: a key whose label is absent or differs from `value` is
set to `value` and `update` is set. -/
def upsertLoop (value : GoString) : List GoString → Labels × Bool → Labels × Bool
  | [], st => st
  | key :: ks, (labels, update) =>
    match mapGet labels key with
    | some currentValue =>
      if currentValue = value then upsertLoop value ks (labels, update)
      else upsertLoop value ks (mapSet labels key value, true)
    | none => upsertLoop value ks (mapSet labels key value, true)

/-- Both loops of `nodeUpdateLabels` on a non-nil `node.Labels`: the label
map when they end and the `update` flag. -/
def nodeLabelsLoops (pfx : GoString) (keys : KeySet) (value : GoString)
    (labels : Labels) : Labels × Bool :=
  upsertLoop value (keys.map Prod.fst)
    (removeLoop pfx keys (labels.map Prod.fst) (labels, false))

/-- What one call of `nodeUpdateLabels` leaves behind. -/
structure Outcome where
  /-- Value of `node.Labels` when the function returns (`none` is nil). -/
  labels : Option Labels
  /-- Value of the local `update`. -/
  update : Bool
  /-- The label store after the call. -/
  world : World
deriving DecidableEq

/-- Go `nodeUpdateLabels` of `node.go`, with the global `dryRun` as a
parameter. `knodes.Get` and `knodes.Update` succeed (their failure ends the
process through `log.Fatal`); `Update` replaces the labels of the node.
`none` is the panic of the assignment `node.Labels[key] = value` into a nil
map. -/
def nodeUpdateLabels (dryRun : Bool) (pfx : GoString) (keys : KeySet) (value : GoString)
    (world : World) : Option Outcome :=
  let fetched : World := { world with calls := world.calls + 1 }
  match world.store with
  | none =>
    match keys with
    | [] => some ⟨none, false, fetched⟩
    | _ :: _ => none
  | some nodeLabels =>
    let r := nodeLabelsLoops pfx keys value nodeLabels
    if !r.2 || dryRun then some ⟨some r.1, r.2, fetched⟩
    else some ⟨some r.1, r.2, { fetched with store := some r.1, updates := r.1 :: fetched.updates }⟩

/-! ## watcher.go: the watcher loop -/

/-- The fields of `udev.Device` that the watcher reads. -/
structure Device where
  DevType : GoString
  Properties : List (GoString × GoString)

/-- Go `udev.DeviceEvent`; `Device = none` is the nil pointer. -/
structure DeviceEvent where
  Action : GoString
  Device : Option Device

/-- Go `syncEvent`; `Event = none` is the nil pointer. -/
structure syncEvent where
  InitFinished : Bool
  Event : Option DeviceEvent

/-- Go `deviceWatcher`. -/
structure deviceWatcher where
  Prefix : GoString
  Subsystem : GoString
  Filter : Device → Bool
  IdProperties : List (GoString × GoString)
  knownKeys : KeySet
  canSync : Bool

/-- Go `(*deviceWatcher).keyPrefix`. -/
def keyPrefix (w : deviceWatcher) : GoString := w.Prefix ++ ascii "/" ++ w.Subsystem ++ ascii "-"

/-- Go `(*deviceWatcher).sync`. -/
def sync (dryRun : Bool) (w : deviceWatcher) (world : World) : Option World :=
  if !w.canSync then some world
  else
    match nodeUpdateLabels dryRun (keyPrefix w) w.knownKeys (ascii "present") world with
    | some out => some out.world
    | none => none

/-- The read `event.Device.Properties[property]`: the empty string for an
absent property. -/
def propertyGet (dev : Device) (property : GoString) : GoString :=
  (mapGet dev.Properties property).getD []

/-- The key that `Run` derives for one identifier tag (watcher.go 65-68),
`none` where `validKey` panics. -/
def deviceKey (w : deviceWatcher) (dev : Device) (tag id : GoString) : Option GoString :=
  validKey (keyPrefix w ++ dev.DevType ++ ascii "-" ++ tag ++ ascii "-" ++ id)

/-- One pass of the body of `for prefix, property := range w.IdProperties`
(watcher.go 59-82). -/
def idStep (dryRun : Bool) (action : GoString) (dev : Device)
    (st : deviceWatcher × World) (tp : GoString × GoString) : Option (deviceWatcher × World) :=
  let id := propertyGet dev tp.2
  if id = [] then some st
  else
    match deviceKey st.1 dev tp.1 id with
    | none => none
    | some key =>
      if action = ascii "add" then
        let w : deviceWatcher := { st.1 with knownKeys := mapSet st.1.knownKeys key true }
        match sync dryRun w st.2 with
        | some world => some (w, world)
        | none => none
      else if action = ascii "remove" then
        let w : deviceWatcher := { st.1 with knownKeys := mapDelete st.1.knownKeys key }
        match sync dryRun w st.2 with
        | some world => some (w, world)
        | none => none
      else some st

/-- The loop `for prefix, property := range w.IdProperties`, visiting the
entries in the order `order`. -/
def idLoop (dryRun : Bool) (action : GoString) (dev : Device) :
    List (GoString × GoString) → deviceWatcher × World → Option (deviceWatcher × World)
  | [], st => some st
  | tp :: rest, st =>
    match idStep dryRun action dev st tp with
    | none => none
    | some st' => idLoop dryRun action dev rest st'

/-- One pass of the body of `for syncEvent := range syncEvents` (watcher.go
44-83). `order` is the order in which this pass ranges over
`w.IdProperties`. -/
def runStep (dryRun : Bool) (st : deviceWatcher × World)
    (ev : syncEvent × List (GoString × GoString)) : Option (deviceWatcher × World) :=
  let afterInit : Option (deviceWatcher × World) :=
    if ev.1.InitFinished then
      let w : deviceWatcher := { st.1 with canSync := true }
      match sync dryRun w st.2 with
      | some world => some (w, world)
      | none => none
    else some st
  match afterInit with
  | none => none
  | some st1 =>
    match ev.1.Event with
    | none => some st1
    | some event =>
      match event.Device with
      | none => some st1
      | some dev =>
        if !st1.1.Filter dev then some st1
        else idLoop dryRun event.Action dev ev.2 st1

/-- The loop over the events received from the channel. -/
def runLoop (dryRun : Bool) :
    List (syncEvent × List (GoString × GoString)) → deviceWatcher × World →
      Option (deviceWatcher × World)
  | [], st => some st
  | ev :: rest, st =>
    match runStep dryRun st ev with
    | none => none
    | some st' => runLoop dryRun rest st'

/-- Go `(*deviceWatcher).Run` on the events that `watch` sends, each with the
order in which its pass ranges over `w.IdProperties`. -/
def Run (dryRun : Bool) (w : deviceWatcher) (world : World)
    (events : List (syncEvent × List (GoString × GoString))) :
    Option (deviceWatcher × World) :=
  runLoop dryRun events ({ w with knownKeys := [] }, world)

/-! ## main.go -/

/-- Go `filterBlock`. -/
def filterBlock (dev : Device) : Bool :=
  if dev.DevType ≠ ascii "disk" then false else true

/-- The watcher that `main` starts. -/
def blockWatcher : deviceWatcher where
  Prefix := ascii "node-devices.alpha.kubernetes.io"
  Subsystem := ascii "block"
  Filter := filterBlock
  IdProperties := [(ascii "wwn", ascii "ID_WWN"), (ascii "sn", ascii "ID_SERIAL_SHORT")]
  knownKeys := []
  canSync := false

/-! ## Vocabulary of the statements -/

/-- A byte of `[A-Za-z0-9_.-]`. -/
def labelChar (b : Byte) : Prop :=
  (0x41 ≤ b.val ∧ b.val ≤ 0x5A) ∨ (0x61 ≤ b.val ∧ b.val ≤ 0x7A) ∨ (0x30 ≤ b.val ∧ b.val ≤ 0x39)
    ∨ b.val = 0x5F ∨ b.val = 0x2E ∨ b.val = 0x2D

instance (b : Byte) : Decidable (labelChar b) := by unfold labelChar; infer_instance

/-- The name segment of a key: everything after its first `/`. -/
def nameSegment (key : GoString) : Option GoString := (cutSlash key).map Prod.snd

/-- Replacement of one byte: a byte outside `[A-Za-z0-9_.-]` becomes `-`. -/
def dashByte (b : Byte) : Byte := if labelChar b then b else 0x2D

/-- The first five characters, lowercased, of the base-32 encoding of the
SHA-1 digest of `name`. -/
def hashSuffix (name : GoString) : GoString := ToLower ((EncodeToString (Sum name)).take 5)

/-- The keys that a device contributes to `knownKeys`: one per identifier tag
whose property is not empty, in the order in which `order` lists the tags. -/
def deviceKeys (w : deviceWatcher) (dev : Device) (order : List (GoString × GoString)) :
    List GoString :=
  order.filterMap (fun tp =>
    if propertyGet dev tp.2 = [] then none else deviceKey w dev tp.1 (propertyGet dev tp.2))

/-- What the passes of one event do to `knownKeys`, given the keys of the
device: `add` sets each of them, `remove` deletes each of them, any other
action leaves the set as it is. -/
def applyAction (action : GoString) (ks : List GoString) (S : KeySet) : KeySet :=
  if action = ascii "add" then ks.foldl (fun S k => mapSet S k true) S
  else if action = ascii "remove" then ks.foldl mapDelete S
  else S

/-- The number of calls of `sync` that the passes of one event make. -/
def expectedSyncs (w : deviceWatcher) (ev : syncEvent) : Nat :=
  match ev.Event with
  | none => 0
  | some event =>
    match event.Device with
    | none => 0
    | some dev =>
      if w.Filter dev = true ∧ (event.Action = ascii "add" ∨ event.Action = ascii "remove") then
        (w.IdProperties.filter (fun tp => decide (propertyGet dev tp.2 ≠ []))).length
      else 0

/-- The label map of the store matches the key set under the prefix: no
label under the prefix without its key, every key labelled `present`. -/
def reconciled (p : GoString) (S : KeySet) (world : World) : Prop :=
  ∃ L, world.store = some L
    ∧ (∀ k, HasPrefix k p = true → k ∉ S.map Prod.fst → mapGet L k = none)
    ∧ (∀ k ∈ S.map Prod.fst, mapGet L k = some (ascii "present"))

/-- Whether the label store can serve the syncs of a watcher: before the
baseline nothing is asked of it, afterwards the label map must be
allocated. -/
def storeReady (canSync : Bool) (world : World) : Prop :=
  canSync = true → ∃ L, world.store = some L

/-- The event changes no key of `knownKeys`: the keys of an added device are
all known already, the keys of a removed device are all unknown. -/
def keysUnchanged (w : deviceWatcher) (ev : syncEvent) : Prop :=
  ∀ event dev, ev.Event = some event → event.Device = some dev → w.Filter dev = true →
    (event.Action = ascii "add" →
        ∀ k ∈ deviceKeys w dev w.IdProperties, k ∈ w.knownKeys.map Prod.fst)
      ∧ (event.Action = ascii "remove" →
        ∀ k ∈ deviceKeys w dev w.IdProperties, k ∉ w.knownKeys.map Prod.fst)

/-! ## Sample inputs -/

/-- A disk with a WWN only. -/
def wwnDisk : Device := ⟨ascii "disk", [(ascii "ID_WWN", ascii "0x5000c500a1b2c3d4")]⟩

/-- A disk with a WWN and a short serial number. -/
def twoIdDisk : Device :=
  ⟨ascii "disk", [(ascii "ID_WWN", ascii "0x5000"), (ascii "ID_SERIAL_SHORT", ascii "S123")]⟩

/-- The key of `wwnDisk` under the watcher of `main`. -/
def wwnKey : GoString := ascii "node-devices.alpha.kubernetes.io/block-disk-wwn-0x5000c500a1b2c3d4"

/-- An `add` event as `watch` sends it. -/
def addEvent (dev : Device) : syncEvent := ⟨false, some ⟨ascii "add", some dev⟩⟩

/-- A `remove` event as `watch` sends it. -/
def removeEvent (dev : Device) : syncEvent := ⟨false, some ⟨ascii "remove", some dev⟩⟩

/-- A watcher whose `Prefix` holds a `/`. -/
def slashWatcher : deviceWatcher := { blockWatcher with Prefix := ascii "a/b", canSync := true }

/-- A watcher whose `Subsystem` holds a space. -/
def spaceWatcher : deviceWatcher :=
  { blockWatcher with Subsystem := ascii "my sub", canSync := true }

/-- A watcher whose `Subsystem` has 58 bytes. -/
def longWatcher : deviceWatcher :=
  { blockWatcher with Subsystem := List.replicate 58 (0x61 : Byte), canSync := true }

/-- The watcher of `main` after the baseline, knowing the key of `wwnDisk`. -/
def syncedWatcher : deviceWatcher :=
  { blockWatcher with knownKeys := [(wwnKey, true)], canSync := true }

/-- The label map of a node with its host label only. -/
def hostLabels : Labels := [(ascii "kubernetes.io/hostname", ascii "n1")]

/-- The label map of a node with its host label and the label of `wwnDisk`. -/
def syncedLabels : Labels :=
  [(ascii "kubernetes.io/hostname", ascii "n1"), (wwnKey, ascii "present")]

/-- A name of 32 times the two bytes of U+00E9: 64 bytes, 32 characters. -/
def eAcuteName : GoString := (List.replicate 32 [(0xC3 : Byte), 0xA9]).flatten

/-- Name of a disk whose `ID_SERIAL_SHORT` has 70 characters. -/
def longSerialName : GoString :=
  ascii "block-disk-sn-0123456789012345678901234567890123456789012345678901234567890123456789"

/-- Raw key of a disk whose `ID_SERIAL_SHORT` has 70 characters. -/
def longSerialKey : GoString :=
  ascii "node-devices.alpha.kubernetes.io" ++ ascii "/" ++ longSerialName

/-! ## Runes and the replacement of invalid characters -/

theorem le_lor_left (a b : Nat) : a ≤ a ||| b :=
  Nat.le_of_testBit (fun i h => by simp [h])

theorem le_lor_right (a b : Nat) : b ≤ a ||| b :=
  Nat.le_of_testBit (fun i h => by simp [h])

theorem firstInfo_spec {s0 sz lo hi : Nat} (h : firstInfo s0 = some (sz, lo, hi)) :
    0x80 ≤ lo ∧ hi ≤ 0xBF ∧ (sz = 2 ∨ sz = 3 ∨ sz = 4) ∧ (sz = 2 → 2 ≤ s0 % 32)
      ∧ (sz = 3 → 1 ≤ s0 % 16 ∨ 0xA0 ≤ lo) ∧ (sz = 4 → 1 ≤ s0 % 8 ∨ 0x90 ≤ lo) := by
  unfold firstInfo at h
  split_ifs at h <;> simp only [Option.some.injEq, Prod.mk.injEq] at h <;> omega

theorem invalidChars_of_ge {r : Nat} (h : 0x80 ≤ r) : invalidChars r = true := by
  simp only [invalidChars, Bool.not_eq_true', Bool.or_eq_false_iff, Bool.and_eq_false_iff,
    decide_eq_false_iff_not]
  omega

theorem invalidChars_RuneError : invalidChars RuneError = true := by decide

theorem shl_le_lor (a k b : Nat) : a * 2 ^ k ≤ (a <<< k) ||| b :=
  calc a * 2 ^ k = a <<< k := (Nat.shiftLeft_eq a k).symm
    _ ≤ _ := le_lor_left _ _

theorem rune2_ge {s0 s1 : Nat} (h : 2 ≤ s0 % 32) :
    0x80 ≤ ((s0 &&& 0x1F) <<< 6) ||| (s1 &&& 0x3F) := by
  have h1 : s0 &&& 0x1F = s0 % 32 := Nat.and_pow_two_sub_one_eq_mod s0 5
  have h2 := shl_le_lor (s0 &&& 0x1F) 6 (s1 &&& 0x3F)
  rw [h1] at h2 ⊢
  omega

theorem rune3_ge {s0 s1 s2 : Nat} (h : 1 ≤ s0 % 16 ∨ 32 ≤ s1 % 64) :
    0x80 ≤ ((s0 &&& 0x0F) <<< 12) ||| ((s1 &&& 0x3F) <<< 6) ||| (s2 &&& 0x3F) := by
  have h0 : s0 &&& 0x0F = s0 % 16 := Nat.and_pow_two_sub_one_eq_mod s0 4
  have h1 : s1 &&& 0x3F = s1 % 64 := Nat.and_pow_two_sub_one_eq_mod s1 6
  have a := le_lor_left (((s0 &&& 0x0F) <<< 12) ||| ((s1 &&& 0x3F) <<< 6)) (s2 &&& 0x3F)
  have b := shl_le_lor (s0 &&& 0x0F) 12 ((s1 &&& 0x3F) <<< 6)
  have c := le_lor_right ((s0 &&& 0x0F) <<< 12) ((s1 &&& 0x3F) <<< 6)
  have d : (s1 &&& 0x3F) * 2 ^ 6 = (s1 &&& 0x3F) <<< 6 := (Nat.shiftLeft_eq _ _).symm
  simp only [h0, h1] at a b c d ⊢
  omega

theorem rune4_ge {s0 s1 s2 s3 : Nat} (h : 1 ≤ s0 % 8 ∨ 16 ≤ s1 % 64) :
    0x80 ≤ ((s0 &&& 0x07) <<< 18) ||| ((s1 &&& 0x3F) <<< 12) ||| ((s2 &&& 0x3F) <<< 6)
      ||| (s3 &&& 0x3F) := by
  have h0 : s0 &&& 0x07 = s0 % 8 := Nat.and_pow_two_sub_one_eq_mod s0 3
  have h1 : s1 &&& 0x3F = s1 % 64 := Nat.and_pow_two_sub_one_eq_mod s1 6
  have a := le_lor_left (((s0 &&& 0x07) <<< 18) ||| ((s1 &&& 0x3F) <<< 12)
    ||| ((s2 &&& 0x3F) <<< 6)) (s3 &&& 0x3F)
  have a2 := le_lor_left (((s0 &&& 0x07) <<< 18) ||| ((s1 &&& 0x3F) <<< 12))
    ((s2 &&& 0x3F) <<< 6)
  have b := shl_le_lor (s0 &&& 0x07) 18 ((s1 &&& 0x3F) <<< 12)
  have c := le_lor_right ((s0 &&& 0x07) <<< 18) ((s1 &&& 0x3F) <<< 12)
  have d : (s1 &&& 0x3F) * 2 ^ 12 = (s1 &&& 0x3F) <<< 12 := (Nat.shiftLeft_eq _ _).symm
  simp only [h0, h1] at a a2 b c d ⊢
  omega

/-- A decoded rune outside the class of `invalidChars` is a single ASCII byte. -/
theorem decode_valid (s0 : Byte) (rest : GoString)
    (h : invalidChars (DecodeRuneInString (s0 :: rest)).1 = false) : s0.val < 0x80 := by
  by_contra hge
  have : invalidChars (DecodeRuneInString (s0 :: rest)).1 = true := by
    simp only [DecodeRuneInString, if_neg hge]
    split
    · exact invalidChars_RuneError
    · next sz lo hi hfi =>
      have hs := firstInfo_spec hfi
      split
      · exact invalidChars_RuneError
      · split
        · exact invalidChars_RuneError
        · next s1 rest1 =>
          split
          · exact invalidChars_RuneError
          · next hr1 =>
            split
            · next hsz => exact invalidChars_of_ge (rune2_ge (by omega))
            · split
              · exact invalidChars_RuneError
              · next s2 rest2 =>
                split
                · exact invalidChars_RuneError
                · split
                  · exact invalidChars_of_ge (rune3_ge (by omega))
                  · split
                    · exact invalidChars_RuneError
                    · split
                      · exact invalidChars_RuneError
                      · exact invalidChars_of_ge (rune4_ge (by omega))
  rw [this] at h
  exact absurd h (by decide)

theorem decode_ascii (s0 : Byte) (rest : GoString) (h : s0.val < 0x80) :
    DecodeRuneInString (s0 :: rest) = (s0.val, 1) := by
  simp only [DecodeRuneInString, if_pos h]

/-- The width of a rune is at least one byte and at most what is left. -/
theorem decode_width (s0 : Byte) (rest : GoString) :
    1 ≤ (DecodeRuneInString (s0 :: rest)).2
      ∧ (DecodeRuneInString (s0 :: rest)).2 ≤ rest.length + 1 := by
  simp only [DecodeRuneInString]
  split
  · simp
  · split
    · simp
    · split
      · simp
      · split
        · simp
        · split
          · simp
          · split
            · simp
            · split
              · simp
              · split
                · simp
                · split
                  · simp
                  · split
                    · simp
                    · split
                      · simp
                      · simp

theorem labelChar_lt {b : Byte} (h : labelChar b) : b.val < 0x80 := by
  unfold labelChar at h; omega

theorem invalidChars_byte (b : Byte) : invalidChars b.val = false ↔ labelChar b := by
  simp only [invalidChars, labelChar, Bool.not_eq_false', Bool.or_eq_true, Bool.and_eq_true,
    decide_eq_true_eq]
  omega

theorem dashByte_labelChar (b : Byte) : labelChar (dashByte b) := by
  unfold dashByte
  split
  · assumption
  · decide

theorem dashByte_of_labelChar {b : Byte} (h : labelChar b) : dashByte b = b := by
  unfold dashByte; rw [if_pos h]

/-- More fuel than the length of the string changes nothing. -/
theorem replaceLoop_fuel : ∀ (f1 f2 : Nat) (s : GoString), s.length ≤ f1 → s.length ≤ f2 →
    replaceLoop f1 s = replaceLoop f2 s := by
  intro f1
  induction f1 with
  | zero =>
    intro f2 s h1 _
    have : s = [] := List.length_eq_zero.mp (Nat.le_zero.mp h1)
    subst this
    cases f2 <;> rfl
  | succ f1 ih =>
    intro f2 s h1 h2
    cases s with
    | nil => cases f2 <;> rfl
    | cons s0 rest =>
      cases f2 with
      | zero => simp at h2
      | succ f2 =>
        have hw := decode_width s0 rest
        have hlen : ((s0 :: rest).drop (DecodeRuneInString (s0 :: rest)).2).length ≤ rest.length := by
          rw [List.length_drop, List.length_cons]; omega
        simp only [List.length_cons, Nat.add_le_add_iff_right] at h1 h2
        simp only [replaceLoop]
        rw [ih f2 _ (le_trans hlen h1) (le_trans hlen h2)]

theorem replaceAll_nil : ReplaceAllString [] = [] := rfl

/-- One step of the scan: the first rune is replaced or kept, the scan goes
on behind it. -/
theorem replaceAll_cons (s0 : Byte) (rest : GoString) :
    ReplaceAllString (s0 :: rest)
      = (if invalidChars (DecodeRuneInString (s0 :: rest)).1 then [(0x2D : Byte)] else [s0])
        ++ ReplaceAllString (rest.drop ((DecodeRuneInString (s0 :: rest)).2 - 1)) := by
  have hw := decode_width s0 rest
  have hdrop : (s0 :: rest).drop (DecodeRuneInString (s0 :: rest)).2
      = rest.drop ((DecodeRuneInString (s0 :: rest)).2 - 1) := by
    obtain ⟨w, hw'⟩ : ∃ w, (DecodeRuneInString (s0 :: rest)).2 = w + 1 := ⟨_, (Nat.sub_add_cancel hw.1).symm⟩
    rw [hw']; simp
  have hfuel : replaceLoop rest.length (rest.drop ((DecodeRuneInString (s0 :: rest)).2 - 1))
      = ReplaceAllString (rest.drop ((DecodeRuneInString (s0 :: rest)).2 - 1)) := by
    unfold ReplaceAllString
    apply replaceLoop_fuel
    · rw [List.length_drop]; omega
    · exact le_refl _
  unfold ReplaceAllString at hfuel ⊢
  simp only [List.length_cons, replaceLoop]
  rw [hdrop, hfuel]
  by_cases hv : invalidChars (DecodeRuneInString (s0 :: rest)).1 = true
  · simp [hv]
  · have hv' : invalidChars (DecodeRuneInString (s0 :: rest)).1 = false := by simpa using hv
    have h0 := decode_valid s0 rest hv'
    rw [decode_ascii s0 rest h0] at hv'
    rw [decode_ascii s0 rest h0]
    simp [hv']

/-- An ASCII byte at the head is replaced on its own. -/
theorem replaceAll_cons_ascii (s0 : Byte) (rest : GoString) (h : s0.val < 0x80) :
    ReplaceAllString (s0 :: rest) = dashByte s0 :: ReplaceAllString rest := by
  rw [replaceAll_cons, decode_ascii s0 rest h]
  simp only [Nat.sub_self, List.drop_zero]
  unfold dashByte
  by_cases hl : labelChar s0
  · rw [(invalidChars_byte s0).mpr hl]; simp [hl]
  · have : invalidChars s0.val = true := by
      cases hc : invalidChars s0.val
      · exact absurd ((invalidChars_byte s0).mp hc) hl
      · rfl
    rw [this]; simp [hl]

/-- The replacement never makes a string longer. -/
theorem replaceAll_length_le (s : GoString) : (ReplaceAllString s).length ≤ s.length := by
  generalize h : s.length = n
  induction n using Nat.strong_induction_on generalizing s with
  | _ n ih =>
    cases s with
    | nil => simp [replaceAll_nil]
    | cons s0 rest =>
      subst h
      rw [replaceAll_cons]
      have := ih (rest.drop ((DecodeRuneInString (s0 :: rest)).2 - 1)).length
        (by simp; omega) _ rfl
      rw [List.length_append]
      have hl : (rest.drop ((DecodeRuneInString (s0 :: rest)).2 - 1)).length ≤ rest.length := by
        simp
      split <;> simp <;> omega

/-- Every byte of the result is in `[A-Za-z0-9_.-]`. -/
theorem replaceAll_labelChar (s : GoString) : ∀ b ∈ ReplaceAllString s, labelChar b := by
  generalize h : s.length = n
  induction n using Nat.strong_induction_on generalizing s with
  | _ n ih =>
    cases s with
    | nil => simp [replaceAll_nil]
    | cons s0 rest =>
      subst h
      rw [replaceAll_cons]
      have := ih (rest.drop ((DecodeRuneInString (s0 :: rest)).2 - 1)).length
        (by simp; omega) _ rfl
      intro b hb
      rw [List.mem_append] at hb
      rcases hb with hb | hb
      · by_cases hv : invalidChars (DecodeRuneInString (s0 :: rest)).1 = true
        · rw [if_pos hv] at hb
          simp at hb; subst hb; decide
        · rw [if_neg hv] at hb
          have hb' : b = s0 := by simpa using hb
          rw [hb']
          have hv' : invalidChars (DecodeRuneInString (s0 :: rest)).1 = false := by simpa using hv
          have h0 := decode_valid s0 rest hv'
          rw [decode_ascii s0 rest h0] at hv'
          exact (invalidChars_byte s0).mp hv'
      · exact this b hb

/-- On an ASCII string the replacement acts byte by byte. -/
theorem replaceAll_ascii (s : GoString) (h : ∀ b ∈ s, b.val < 0x80) :
    ReplaceAllString s = s.map dashByte := by
  induction s with
  | nil => rfl
  | cons s0 rest ih =>
    rw [replaceAll_cons_ascii s0 rest (h s0 (List.mem_cons_self _ _)),
      ih (fun b hb => h b (List.mem_cons_of_mem _ hb))]
    rfl

/-- A string of `[A-Za-z0-9_.-]` is left as it is. -/
theorem replaceAll_of_labelChar (s : GoString) (h : ∀ b ∈ s, labelChar b) :
    ReplaceAllString s = s := by
  rw [replaceAll_ascii s (fun b hb => labelChar_lt (h b hb))]
  conv_rhs => rw [← List.map_id s]
  exact List.map_congr_left (fun b hb => dashByte_of_labelChar (h b hb))

/-- A leading run of `[A-Za-z0-9_.-]` is kept in place. -/
theorem replaceAll_labelChar_append (a s : GoString) (h : ∀ b ∈ a, labelChar b) :
    ReplaceAllString (a ++ s) = a ++ ReplaceAllString s := by
  induction a with
  | nil => rfl
  | cons a0 rest ih =>
    have h0 := h a0 (List.mem_cons_self _ _)
    rw [List.cons_append, replaceAll_cons_ascii a0 _ (labelChar_lt h0),
      ih (fun b hb => h b (List.mem_cons_of_mem _ hb)), dashByte_of_labelChar h0]
    rfl

/-- One ASCII byte behind a string does not change how its first rune
decodes. -/
theorem decode_append_one (s0 : Byte) (rest : GoString) (b : Byte) (hb : b.val < 0x80) :
    DecodeRuneInString (s0 :: (rest ++ [b])) = DecodeRuneInString (s0 :: rest) := by
  simp only [DecodeRuneInString]
  by_cases h0 : s0.val < 0x80
  · simp only [h0, if_true]
  · cases hfi : firstInfo s0.val with
    | none => simp only [h0, if_false]
    | some t =>
      obtain ⟨sz, lo, hi⟩ := t
      have hs := firstInfo_spec hfi
      rcases rest with _ | ⟨s1, _ | ⟨s2, _ | ⟨s3, rest⟩⟩⟩ <;>
      simp only [h0, if_false, List.nil_append, List.cons_append,
        List.length_cons, List.length_nil, List.length_append] <;>
      split_ifs <;> first | rfl | omega

/-- ASCII bytes behind a string do not change how its first rune decodes. -/
theorem decode_append (s0 : Byte) (rest B : GoString) (hB : ∀ b ∈ B, b.val < 0x80) :
    DecodeRuneInString (s0 :: (rest ++ B)) = DecodeRuneInString (s0 :: rest) := by
  induction B generalizing rest with
  | nil => rw [List.append_nil]
  | cons b B ih =>
    have h1 : rest ++ b :: B = (rest ++ [b]) ++ B := by simp
    rw [h1, ih (rest ++ [b]) (fun x hx => hB x (List.mem_cons_of_mem _ hx)),
      decode_append_one s0 rest b (hB b (List.mem_cons_self _ _))]

/-- The replacement of a string followed by ASCII bytes is the replacement
of the string followed by the replacement of those bytes. -/
theorem replaceAll_append_ascii (A B : GoString) (hB : ∀ b ∈ B, b.val < 0x80) :
    ReplaceAllString (A ++ B) = ReplaceAllString A ++ ReplaceAllString B := by
  generalize h : A.length = n
  induction n using Nat.strong_induction_on generalizing A with
  | _ n ih =>
    cases A with
    | nil => simp [replaceAll_nil]
    | cons s0 rest =>
      subst h
      have hw := decode_width s0 rest
      rw [List.cons_append, replaceAll_cons, replaceAll_cons s0 rest, decode_append s0 rest B hB,
        List.append_assoc]
      congr 1
      rw [List.drop_append_of_le_length (by omega)]
      exact ih _ (by simp; omega) _ rfl

/-! ## Splitting, hashing and the name that validKey builds -/

theorem ascii_slash : ascii "/" = [(0x2F : Byte)] := by decide

theorem ascii_dash : ascii "-" = [(0x2D : Byte)] := by decide

theorem cutSlash_append (x y : GoString) (h : (0x2F : Byte) ∉ x) :
    cutSlash (x ++ (0x2F : Byte) :: y) = some (x, y) := by
  induction x with
  | nil => simp [cutSlash]
  | cons b rest ih =>
    have hb : b ≠ (0x2F : Byte) := fun e => h (e ▸ List.mem_cons_self _ _)
    have hr : (0x2F : Byte) ∉ rest := fun m => h (List.mem_cons_of_mem _ m)
    simp [cutSlash, hb, ih hr]

theorem cutSlash_some {s x y : GoString} (h : cutSlash s = some (x, y)) :
    s = x ++ (0x2F : Byte) :: y ∧ (0x2F : Byte) ∉ x := by
  induction s generalizing x with
  | nil => simp [cutSlash] at h
  | cons b rest ih =>
    unfold cutSlash at h
    by_cases hb : b = (0x2F : Byte)
    · rw [if_pos hb] at h
      simp only [Option.some.injEq, Prod.mk.injEq] at h
      obtain ⟨rfl, rfl⟩ := h
      simp [hb]
    · rw [if_neg hb] at h
      cases hc : cutSlash rest with
      | none => rw [hc] at h; simp at h
      | some p =>
        obtain ⟨x', y'⟩ := p
        rw [hc] at h
        simp only [Option.some.injEq, Prod.mk.injEq] at h
        obtain ⟨rfl, rfl⟩ := h
        obtain ⟨e, hx⟩ := ih hc
        refine ⟨by rw [e]; rfl, ?_⟩
        intro hm
        rcases List.mem_cons.mp hm with hm | hm
        · exact hb hm.symm
        · exact hx hm

theorem cutSlash_of_mem (s : GoString) (h : (0x2F : Byte) ∈ s) :
    ∃ x y, cutSlash s = some (x, y) := by
  induction s with
  | nil => simp at h
  | cons b rest ih =>
    unfold cutSlash
    by_cases hb : b = (0x2F : Byte)
    · exact ⟨[], rest, by rw [if_pos hb]⟩
    · have hr : (0x2F : Byte) ∈ rest := by
        rcases List.mem_cons.mp h with hm | hm
        · exact absurd hm.symm hb
        · exact hm
      obtain ⟨x, y, hxy⟩ := ih hr
      exact ⟨b :: x, y, by rw [if_neg hb, hxy]⟩

theorem Sum_length (data : GoString) : (Sum data).length = 20 := by
  simp [Sum, wordBytes]

/-- The first five characters of the encoding of five bytes or more. -/
theorem encode_take5 (d : GoString) (h : 5 ≤ d.length) :
    5 ≤ (EncodeToString d).length
      ∧ ∃ i0 i1 i2 i3 i4, (EncodeToString d).take 5
          = [encodeStd i0, encodeStd i1, encodeStd i2, encodeStd i3, encodeStd i4] := by
  rcases d with _ | ⟨a, _ | ⟨b, _ | ⟨c, _ | ⟨d, _ | ⟨e, rest⟩⟩⟩⟩⟩ <;>
    simp only [List.length_cons, List.length_nil] at h <;> try omega
  refine ⟨by simp [EncodeToString], ?_⟩
  simp only [EncodeToString, List.cons_append, List.take_succ_cons, List.take_zero]
  exact ⟨_, _, _, _, _, rfl⟩

theorem lower_encodeStd (i : Nat) :
    labelChar (if 0x41 ≤ (encodeStd i).val ∧ (encodeStd i).val ≤ 0x5A
      then (Fin.ofNat ((encodeStd i).val + 0x20) : Byte) else encodeStd i) := by
  have hi : i % 32 < 32 := Nat.mod_lt _ (by decide)
  unfold encodeStd
  by_cases h : i % 32 < 26
  · rw [if_pos h]
    have e1 : (Fin.ofNat (0x41 + i % 32) : Byte).val = 0x41 + i % 32 := by
      show (0x41 + i % 32) % 256 = _
      omega
    rw [e1, if_pos (by omega)]
    have e2 : (Fin.ofNat (0x41 + i % 32 + 0x20) : Byte).val = 0x61 + i % 32 := by
      show (0x41 + i % 32 + 0x20) % 256 = _
      omega
    unfold labelChar
    rw [e2]; omega
  · rw [if_neg h]
    have e1 : (Fin.ofNat (0x32 + (i % 32 - 26)) : Byte).val = 0x32 + (i % 32 - 26) := by
      show (0x32 + (i % 32 - 26)) % 256 = _
      omega
    rw [e1, if_neg (by omega)]
    unfold labelChar
    rw [e1]; omega

theorem hashSuffix_length (name : GoString) : (hashSuffix name).length = 5 := by
  obtain ⟨_, i0, i1, i2, i3, i4, h⟩ := encode_take5 (Sum name) (by rw [Sum_length]; decide)
  simp [hashSuffix, ToLower, h]

theorem hashSuffix_labelChar (name : GoString) : ∀ b ∈ hashSuffix name, labelChar b := by
  obtain ⟨_, i0, i1, i2, i3, i4, h⟩ := encode_take5 (Sum name) (by rw [Sum_length]; decide)
  intro b hb
  simp only [hashSuffix, ToLower, h, List.map_cons, List.map_nil, List.mem_cons,
    List.mem_nil_iff, or_false] at hb
  rcases hb with hb | hb | hb | hb | hb <;> rw [hb] <;> exact lower_encodeStd _

/-- A name of more than 63 bytes: its first 57 bytes, `-` and the hash
suffix, then the replacement, which leaves `-` and the suffix as they are. -/
theorem validName_long (name : GoString) (h : 63 < name.length) :
    validName name
      = some (ReplaceAllString (name.take 57) ++ ascii "-" ++ hashSuffix name) := by
  obtain ⟨h5, _⟩ := encode_take5 (Sum name) (by rw [Sum_length]; decide)
  have hl : ∀ b ∈ ascii "-" ++ hashSuffix name, labelChar b := by
    intro b hb
    rcases List.mem_append.mp hb with hb | hb
    · rw [ascii_dash] at hb
      simp at hb; rw [hb]; decide
    · exact hashSuffix_labelChar name b hb
  have e1 : slice (EncodeToString (Sum name)) 0 5 = some ((EncodeToString (Sum name)).take 5) := by
    simp [slice, h5]
  have e2 : slice name 0 (63 - 5 - 1) = some (name.take 57) := by
    simp [slice]; omega
  unfold validName
  rw [if_pos h, e1, e2]
  show some (ReplaceAllString (name.take 57 ++ ascii "-" ++ hashSuffix name)) = _
  rw [List.append_assoc, replaceAll_append_ascii _ _ (fun b hb => labelChar_lt (hl b hb)),
    replaceAll_of_labelChar _ hl, List.append_assoc]

theorem validName_short (name : GoString) (h : name.length ≤ 63) :
    validName name = some (ReplaceAllString name) := by
  unfold validName
  rw [if_neg (by omega)]

/-- The name that `validKey` builds is at most 63 bytes long and made of
`[A-Za-z0-9_.-]`. -/
theorem validName_spec (name : GoString) :
    ∃ n, validName name = some n ∧ n.length ≤ 63 ∧ ∀ b ∈ n, labelChar b := by
  by_cases h : 63 < name.length
  · refine ⟨_, validName_long name h, ?_, ?_⟩
    · have := replaceAll_length_le (name.take 57)
      simp only [List.length_append, hashSuffix_length, ascii_dash, List.length_cons,
        List.length_nil, List.length_take] at this ⊢
      omega
    · intro b hb
      rcases List.mem_append.mp hb with hb | hb
      · rcases List.mem_append.mp hb with hb | hb
        · exact replaceAll_labelChar _ b hb
        · rw [ascii_dash] at hb
          simp at hb; rw [hb]; decide
      · exact hashSuffix_labelChar name b hb
  · refine ⟨_, validName_short name (by omega), ?_, replaceAll_labelChar name⟩
    exact le_trans (replaceAll_length_le name) (by omega)

theorem validKey_of_cut {rawKey ns name : GoString} (h : cutSlash rawKey = some (ns, name)) :
    validKey rawKey = (validName name).map (fun n => ns ++ ascii "/" ++ n) := by
  simp only [validKey, SplitN, h]
  cases validName name <;> rfl

theorem nameSegment_join (ns n : GoString) (h : (0x2F : Byte) ∉ ns) :
    nameSegment (ns ++ ascii "/" ++ n) = some n := by
  unfold nameSegment
  rw [ascii_slash, List.append_assoc, List.singleton_append, cutSlash_append ns n h]
  rfl

/-! ## Go maps and the loops of nodeUpdateLabels -/

section Maps
variable {β : Type}

theorem mapGet_mapDelete (m : List (GoString × β)) (k k' : GoString) :
    mapGet (mapDelete m k) k' = if k' = k then none else mapGet m k' := by
  induction m with
  | nil => simp [mapDelete, mapGet]
  | cons e rest ih =>
    obtain ⟨a, v⟩ := e
    unfold mapDelete at ih ⊢
    by_cases ha : a = k
    · subst ha
      simp only [List.filter_cons, ne_eq, not_true_eq_false, decide_False, mapGet]
      rw [if_neg (by simp), ih]
      by_cases hk : k' = a
      · simp [hk]
      · have : ¬ a = k' := fun e => hk e.symm
        simp [hk, this]
    · simp only [List.filter_cons, ne_eq, ha, not_false_eq_true, decide_True, if_true, mapGet]
      rw [ih]
      by_cases hk : k' = k
      · subst hk; simp [ha]
      · simp [hk]

theorem mapGet_mapSet (m : List (GoString × β)) (k k' : GoString) (v : β) :
    mapGet (mapSet m k v) k' = if k' = k then some v else mapGet m k' := by
  unfold mapSet
  simp only [mapGet]
  rw [mapGet_mapDelete]
  by_cases hk : k' = k
  · subst hk; simp
  · have : ¬ k = k' := fun e => hk e.symm
    simp [hk, this]

theorem mapGet_eq_none_iff (m : List (GoString × β)) (k : GoString) :
    mapGet m k = none ↔ k ∉ m.map Prod.fst := by
  induction m with
  | nil => simp [mapGet]
  | cons e rest ih =>
    obtain ⟨a, v⟩ := e
    simp only [mapGet, List.map_cons, List.mem_cons, not_or]
    by_cases ha : a = k
    · subst ha; simp
    · have : ¬ k = a := fun e => ha e.symm
      simp [ha, this, ih]

theorem mapDelete_of_not_mem (m : List (GoString × β)) (k : GoString)
    (h : k ∉ m.map Prod.fst) : mapDelete m k = m := by
  unfold mapDelete
  rw [List.filter_eq_self]
  intro e he
  have : e.1 ≠ k := fun eq => h (eq ▸ List.mem_map_of_mem Prod.fst he)
  simpa using this

theorem mapDelete_append (m1 m2 : List (GoString × β)) (k : GoString) :
    mapDelete (m1 ++ m2) k = mapDelete m1 k ++ mapDelete m2 k := by
  simp [mapDelete]

end Maps

theorem mem_of_mapGet {β : Type} {m : List (GoString × β)} {k : GoString} {v : β}
    (h : mapGet m k = some v) : (k, v) ∈ m := by
  induction m with
  | nil => simp [mapGet] at h
  | cons e rest ih =>
    obtain ⟨a, b⟩ := e
    simp only [mapGet] at h
    by_cases ha : a = k
    · rw [if_pos ha] at h
      simp only [Option.some.injEq] at h
      subst ha; subst h
      exact List.mem_cons_self _ _
    · rw [if_neg ha] at h
      exact List.mem_cons_of_mem _ (ih h)

/-- In a key set whose entries are all `true`, the read `keys[k]` is `false`
only for an absent key. -/
theorem keysGet_false_of_allTrue {keys : KeySet} (hK : ∀ e ∈ keys, e.2 = true) {k : GoString}
    (h : keysGet keys k = false) : mapGet keys k = none := by
  cases hg : mapGet keys k with
  | none => rfl
  | some b =>
    have hb := hK _ (mem_of_mapGet hg)
    simp only at hb
    subst hb
    simp [keysGet, hg] at h

/-! ## The two loops of nodeUpdateLabels -/

theorem removeLoop_get (pfx : GoString) (keys : KeySet) (ks : List GoString) (labels : Labels)
    (update : Bool) (k : GoString) :
    mapGet (removeLoop pfx keys ks (labels, update)).1 k
      = if k ∈ ks ∧ HasPrefix k pfx = true ∧ keysGet keys k = false then none
        else mapGet labels k := by
  induction ks generalizing labels update with
  | nil => simp [removeLoop]
  | cons key ks ih =>
    unfold removeLoop
    by_cases hp : HasPrefix key pfx = true
    · by_cases hg : keysGet keys key = true
      · simp only [hp, hg, Bool.not_true, if_true, Bool.false_eq_true, if_false]
        rw [ih]
        by_cases hk : k = key
        · subst hk; simp [hg]
        · simp [hk]
      · simp only [hp, hg, Bool.not_true, Bool.false_eq_true, if_false]
        rw [ih, mapGet_mapDelete]
        have hg' : keysGet keys key = false := by simpa using hg
        by_cases hk : k = key
        · subst hk; simp [hp, hg']
        · simp [hk]
    · have hp' : HasPrefix key pfx = false := by simpa using hp
      simp only [hp', Bool.not_false, if_true]
      rw [ih]
      by_cases hk : k = key
      · subst hk; simp [hp']
      · simp [hk]

theorem removeLoop_flag (pfx : GoString) (keys : KeySet) (ks : List GoString) (labels : Labels)
    (update : Bool) :
    (removeLoop pfx keys ks (labels, update)).2
      = (update || ks.any (fun k => HasPrefix k pfx && !keysGet keys k)) := by
  induction ks generalizing labels update with
  | nil => simp [removeLoop]
  | cons key ks ih =>
    unfold removeLoop
    by_cases hp : HasPrefix key pfx = true
    · by_cases hg : keysGet keys key = true
      · simp only [hp, hg, Bool.not_true, if_true, Bool.false_eq_true, if_false]
        rw [ih]; simp [hp, hg]
      · simp only [hp, hg, Bool.not_true, Bool.false_eq_true, if_false]
        rw [ih]; simp [hp, hg]
    · have hp' : HasPrefix key pfx = false := by simpa using hp
      simp only [hp', Bool.not_false, if_true]
      rw [ih]; simp [hp']

theorem removeLoop_unchanged (pfx : GoString) (keys : KeySet) (ks : List GoString)
    (st : Labels × Bool)
    (h : ∀ k ∈ ks, HasPrefix k pfx = true → keysGet keys k = true) :
    removeLoop pfx keys ks st = st := by
  induction ks with
  | nil => cases st; rfl
  | cons key ks ih =>
    obtain ⟨labels, update⟩ := st
    unfold removeLoop
    have ih' := ih (fun k hk => h k (List.mem_cons_of_mem _ hk))
    by_cases hp : HasPrefix key pfx = true
    · have hg := h key (List.mem_cons_self _ _) hp
      simp only [hp, hg, Bool.not_true, if_true, Bool.false_eq_true, if_false]
      exact ih'
    · have hp' : HasPrefix key pfx = false := by simpa using hp
      simp only [hp', Bool.not_false, if_true]
      exact ih'

theorem upsertLoop_get (value : GoString) (ks : List GoString) (labels : Labels)
    (update : Bool) (k : GoString) :
    mapGet (upsertLoop value ks (labels, update)).1 k
      = if k ∈ ks then some value else mapGet labels k := by
  induction ks generalizing labels update with
  | nil => simp [upsertLoop]
  | cons key ks ih =>
    unfold upsertLoop
    cases hg : mapGet labels key with
    | none =>
      simp only
      rw [ih, mapGet_mapSet]
      by_cases hk : k = key
      · subst hk; simp
      · simp [hk]
    | some cur =>
      simp only
      by_cases hc : cur = value
      · rw [if_pos hc, ih]
        by_cases hk : k = key
        · subst hk; subst hc; simp [hg]
        · simp [hk]
      · rw [if_neg hc, ih, mapGet_mapSet]
        by_cases hk : k = key
        · subst hk; simp
        · simp [hk]

theorem upsertLoop_flag_true (value : GoString) (ks : List GoString) (labels : Labels) :
    (upsertLoop value ks (labels, true)).2 = true := by
  induction ks generalizing labels with
  | nil => rfl
  | cons key ks ih =>
    unfold upsertLoop
    cases mapGet labels key with
    | none => exact ih _
    | some cur =>
      simp only
      split
      · exact ih _
      · exact ih _

theorem upsertLoop_flag (value : GoString) (ks : List GoString) (labels : Labels)
    (update : Bool) :
    (upsertLoop value ks (labels, update)).2
      = (update || ks.any (fun k => decide (mapGet labels k ≠ some value))) := by
  induction ks generalizing labels update with
  | nil => simp [upsertLoop]
  | cons key ks ih =>
    unfold upsertLoop
    cases hg : mapGet labels key with
    | none =>
      simp only
      rw [upsertLoop_flag_true]; simp [hg]
    | some cur =>
      simp only
      by_cases hc : cur = value
      · rw [if_pos hc, ih]; simp [hg, hc]
      · rw [if_neg hc, upsertLoop_flag_true]; simp [hg, hc]

theorem upsertLoop_unchanged (value : GoString) (ks : List GoString) (st : Labels × Bool)
    (h : ∀ k ∈ ks, mapGet st.1 k = some value) :
    upsertLoop value ks st = st := by
  induction ks with
  | nil => cases st; rfl
  | cons key ks ih =>
    obtain ⟨labels, update⟩ := st
    unfold upsertLoop
    have hg : mapGet labels key = some value := h key (List.mem_cons_self _ _)
    rw [hg]
    simp only [if_true]
    exact ih (fun k hk => h k (List.mem_cons_of_mem _ hk))

theorem keysGet_true_of_mem {keys : KeySet} (hK : ∀ e ∈ keys, e.2 = true) {k : GoString}
    (h : k ∈ keys.map Prod.fst) : keysGet keys k = true := by
  cases hg : keysGet keys k with
  | true => rfl
  | false =>
    exact absurd h ((mapGet_eq_none_iff keys k).mp (keysGet_false_of_allTrue hK hg))

/-- The label map that the two loops leave, key by key. -/
theorem loops_get (p : GoString) (K : KeySet) (v : GoString) (L : Labels) (k : GoString) :
    mapGet (nodeLabelsLoops p K v L).1 k
      = if k ∈ K.map Prod.fst then some v
        else if k ∈ L.map Prod.fst ∧ HasPrefix k p = true ∧ keysGet K k = false then none
        else mapGet L k := by
  unfold nodeLabelsLoops
  rw [show removeLoop p K (L.map Prod.fst) (L, false)
      = ((removeLoop p K (L.map Prod.fst) (L, false)).1,
         (removeLoop p K (L.map Prod.fst) (L, false)).2) from rfl,
    upsertLoop_get, removeLoop_get]

/-- With `update` still false after both loops, nothing was written. -/
theorem loops_flag_false (p : GoString) (K : KeySet) (v : GoString) (L : Labels)
    (h : (nodeLabelsLoops p K v L).2 = false) : nodeLabelsLoops p K v L = (L, false) := by
  unfold nodeLabelsLoops at h ⊢
  have e : removeLoop p K (L.map Prod.fst) (L, false)
      = ((removeLoop p K (L.map Prod.fst) (L, false)).1,
         (removeLoop p K (L.map Prod.fst) (L, false)).2) := rfl
  rw [e, upsertLoop_flag, removeLoop_flag] at h
  simp only [Bool.false_or, Bool.or_eq_false_iff, List.any_eq_false, Bool.and_eq_true,
    Bool.not_eq_true', not_and, Bool.not_eq_false, decide_eq_true_eq, ne_eq, not_not] at h
  have h1 : removeLoop p K (L.map Prod.fst) (L, false) = (L, false) :=
    removeLoop_unchanged p K _ _ (fun k hk hp => h.1 k hk hp)
  rw [h1] at h ⊢
  exact upsertLoop_unchanged v _ _ (fun k hk => h.2 k hk)

/-- The label map that the two loops leave is a fixed point of the loops. -/
theorem loops_fixed (p : GoString) (K : KeySet) (v : GoString) (L : Labels)
    (hK : ∀ e ∈ K, e.2 = true) :
    nodeLabelsLoops p K v (nodeLabelsLoops p K v L).1 = ((nodeLabelsLoops p K v L).1, false) := by
  generalize hL : (nodeLabelsLoops p K v L).1 = L'
  have hget : ∀ k, mapGet L' k = _ := fun k => hL ▸ loops_get p K v L k
  have h1 : removeLoop p K (L'.map Prod.fst) (L', false) = (L', false) := by
    apply removeLoop_unchanged
    intro k hk hp
    by_cases hkK : k ∈ K.map Prod.fst
    · exact keysGet_true_of_mem hK hkK
    · have hne : mapGet L' k ≠ none := fun e => (mapGet_eq_none_iff L' k).mp e hk
      rw [hget k, if_neg hkK] at hne
      by_cases hc : k ∈ L.map Prod.fst ∧ HasPrefix k p = true ∧ keysGet K k = false
      · rw [if_pos hc] at hne; exact absurd rfl hne
      · rw [if_neg hc] at hne
        have hkL : k ∈ L.map Prod.fst := by
          by_contra hn
          exact hne ((mapGet_eq_none_iff L k).mpr hn)
        cases hg : keysGet K k with
        | true => rfl
        | false => exact absurd ⟨hkL, hp, hg⟩ hc
  unfold nodeLabelsLoops
  rw [h1]
  apply upsertLoop_unchanged
  intro k hk
  show mapGet L' k = some v
  rw [hget k, if_pos hk]

/-- What `nodeUpdateLabels` does on a node whose label map is allocated. -/
theorem nodeUpdateLabels_some (dryRun : Bool) (p : GoString) (K : KeySet) (v : GoString)
    (world : World) (L : Labels) (h : world.store = some L) :
    nodeUpdateLabels dryRun p K v world
      = some ⟨some (nodeLabelsLoops p K v L).1, (nodeLabelsLoops p K v L).2,
          if (!(nodeLabelsLoops p K v L).2 || dryRun) = true then
            { world with calls := world.calls + 1 }
          else
            { store := some (nodeLabelsLoops p K v L).1, calls := world.calls + 1,
              updates := (nodeLabelsLoops p K v L).1 :: world.updates }⟩ := by
  unfold nodeUpdateLabels
  rw [h]
  simp only
  split <;> rfl

/-! ## The watcher loop -/

/-- After the loops no label under the prefix is left without its key. -/
theorem loops_no_stale (p : GoString) (K : KeySet) (v : GoString) (L : Labels) (k : GoString)
    (hp : HasPrefix k p = true) (hk : k ∉ K.map Prod.fst) :
    mapGet (nodeLabelsLoops p K v L).1 k = none := by
  rw [loops_get, if_neg hk]
  by_cases hkL : k ∈ L.map Prod.fst
  · have hg : keysGet K k = false := by
      simp [keysGet, (mapGet_eq_none_iff K k).mpr hk]
    rw [if_pos ⟨hkL, hp, hg⟩]
  · rw [if_neg (fun h => hkL h.1)]
    exact (mapGet_eq_none_iff L k).mpr hkL

theorem slash_mem_keyPrefix (w : deviceWatcher) (rest : GoString) :
    (0x2F : Byte) ∈ keyPrefix w ++ rest := by
  simp [keyPrefix, ascii_slash]

/-- The key derivation of `Run` never panics: the raw key holds the `/` of
`keyPrefix`. -/
theorem deviceKey_some (w : deviceWatcher) (dev : Device) (tag id : GoString) :
    ∃ key, deviceKey w dev tag id = some key := by
  have hmem : (0x2F : Byte) ∈ keyPrefix w ++ dev.DevType ++ ascii "-" ++ tag ++ ascii "-" ++ id := by
    simp only [List.append_assoc]
    exact slash_mem_keyPrefix w _
  obtain ⟨key, hkey⟩ := cutSlash_of_mem _ hmem
  obtain ⟨name, hcut⟩ := hkey
  obtain ⟨n, hn, _⟩ := validName_spec name
  refine ⟨key ++ ascii "/" ++ n, ?_⟩
  unfold deviceKey
  rw [validKey_of_cut hcut, hn]
  rfl

theorem sync_off (dryRun : Bool) (w : deviceWatcher) (world : World) (h : w.canSync = false) :
    sync dryRun w world = some world := by
  unfold sync
  rw [h]; rfl

/-- With `canSync` set and an allocated label map, `sync` is one call of
`nodeUpdateLabels` that returns; outside dry-run mode it leaves the store
matching `knownKeys`. -/
theorem sync_on (dryRun : Bool) (w : deviceWatcher) (world : World) (L : Labels)
    (hc : w.canSync = true) (hL : world.store = some L) :
    ∃ world', sync dryRun w world = some world' ∧ world'.calls = world.calls + 1
      ∧ (∃ L', world'.store = some L')
      ∧ (dryRun = false → reconciled (keyPrefix w) w.knownKeys world') := by
  have hrec : ∀ world' : World,
      world'.store = some (nodeLabelsLoops (keyPrefix w) w.knownKeys (ascii "present") L).1 →
      reconciled (keyPrefix w) w.knownKeys world' := fun world' h =>
    ⟨_, h, fun k hp hk => loops_no_stale _ _ _ L k hp hk,
      fun k hk => by rw [loops_get, if_pos hk]⟩
  unfold sync
  rw [hc, nodeUpdateLabels_some dryRun _ _ _ world L hL]
  simp only [Bool.not_true, Bool.false_eq_true, if_false]
  by_cases hcond : (!(nodeLabelsLoops (keyPrefix w) w.knownKeys (ascii "present") L).2 || dryRun) = true
  · rw [if_pos hcond]
    refine ⟨_, rfl, rfl, ⟨L, hL⟩, ?_⟩
    intro hd
    subst hd
    have hu : (nodeLabelsLoops (keyPrefix w) w.knownKeys (ascii "present") L).2 = false := by
      simpa using hcond
    apply hrec
    show world.store = _
    rw [loops_flag_false _ _ _ _ hu]
    exact hL
  · rw [if_neg hcond]
    exact ⟨_, rfl, rfl, ⟨_, rfl⟩, fun _ => hrec _ rfl⟩

/-- One pass of the loop over the identifier tags. -/
theorem idStep_spec (dryRun : Bool) (action : GoString) (dev : Device) (w : deviceWatcher)
    (S : KeySet) (world : World) (tp : GoString × GoString)
    (hs : storeReady w.canSync world) :
    ∃ world', idStep dryRun action dev ({ w with knownKeys := S }, world) tp
        = some ({ w with knownKeys := applyAction action (deviceKeys w dev [tp]) S }, world')
      ∧ storeReady w.canSync world'
      ∧ (w.canSync = false → world' = world)
      ∧ (w.canSync = true → world'.calls = world.calls
          + if action = ascii "add" ∨ action = ascii "remove"
            then (deviceKeys w dev [tp]).length else 0)
      ∧ (deviceKeys w dev [tp] = [] → world' = world)
      ∧ (w.canSync = true → dryRun = false → action = ascii "add" ∨ action = ascii "remove" →
          deviceKeys w dev [tp] ≠ [] →
          reconciled (keyPrefix w) (applyAction action (deviceKeys w dev [tp]) S) world') := by
  unfold idStep
  by_cases hid : propertyGet dev tp.2 = []
  · have hk : deviceKeys w dev [tp] = [] := by simp [deviceKeys, hid]
    simp only [hid, if_true, hk]
    refine ⟨world, ?_, hs, fun _ => rfl, fun _ => by simp, fun _ => rfl,
      fun _ _ _ h => absurd rfl h⟩
    unfold applyAction
    split_ifs <;> rfl
  · obtain ⟨key, hkey⟩ := deviceKey_some w dev tp.1 (propertyGet dev tp.2)
    have hkey' : deviceKey ({ w with knownKeys := S }) dev tp.1 (propertyGet dev tp.2) = some key :=
      hkey
    have hk : deviceKeys w dev [tp] = [key] := by simp [deviceKeys, hid, hkey]
    simp only [hid, if_false, hkey', hk]
    have hnil : ([key] : List GoString) = [] → False := fun h => by simp at h
    by_cases hadd : action = ascii "add"
    · simp only [hadd, if_true, applyAction, List.foldl_cons, List.foldl_nil, true_or,
        List.length_singleton]
      rcases Bool.eq_false_or_eq_true w.canSync with hcs | hcs
      · obtain ⟨L, hL⟩ := hs hcs
        obtain ⟨world', hsync, hcalls, hst, hrec⟩ :=
          sync_on dryRun { w with knownKeys := mapSet S key true } world L hcs hL
        rw [hsync]
        exact ⟨world', rfl, fun _ => hst, fun h => absurd (hcs.symm.trans h) (by decide),
          fun _ => hcalls, fun h => (hnil h).elim, fun _ hd _ _ => hrec hd⟩
      · rw [sync_off dryRun { w with knownKeys := mapSet S key true } world hcs]
        exact ⟨world, rfl, hs, fun _ => rfl, fun h => absurd (hcs.symm.trans h) (by decide),
          fun _ => rfl, fun h => absurd (hcs.symm.trans h) (by decide)⟩
    · by_cases hrem : action = ascii "remove"
      · have hne : ascii "remove" ≠ ascii "add" := by decide
        simp only [hrem, hne, if_false, if_true, applyAction, List.foldl_cons, List.foldl_nil,
          or_true, List.length_singleton]
        rcases Bool.eq_false_or_eq_true w.canSync with hcs | hcs
        · obtain ⟨L, hL⟩ := hs hcs
          obtain ⟨world', hsync, hcalls, hst, hrec⟩ :=
            sync_on dryRun { w with knownKeys := mapDelete S key } world L hcs hL
          rw [hsync]
          exact ⟨world', rfl, fun _ => hst, fun h => absurd (hcs.symm.trans h) (by decide),
            fun _ => hcalls, fun h => (hnil h).elim, fun _ hd _ _ => hrec hd⟩
        · rw [sync_off dryRun { w with knownKeys := mapDelete S key } world hcs]
          exact ⟨world, rfl, hs, fun _ => rfl, fun h => absurd (hcs.symm.trans h) (by decide),
            fun _ => rfl, fun h => absurd (hcs.symm.trans h) (by decide)⟩
      · simp only [hadd, hrem, if_false, applyAction, or_self]
        exact ⟨world, rfl, hs, fun _ => rfl, fun _ => by simp, fun _ => rfl,
          fun _ _ h => by simp [hadd, hrem] at h⟩

theorem deviceKeys_cons (w : deviceWatcher) (dev : Device) (tp : GoString × GoString)
    (rest : List (GoString × GoString)) :
    deviceKeys w dev (tp :: rest) = deviceKeys w dev [tp] ++ deviceKeys w dev rest := by
  unfold deviceKeys
  rw [← List.filterMap_append]
  rfl

theorem applyAction_append (action : GoString) (ks1 ks2 : List GoString) (S : KeySet) :
    applyAction action (ks1 ++ ks2) S = applyAction action ks2 (applyAction action ks1 S) := by
  unfold applyAction
  split_ifs <;> simp [List.foldl_append]

theorem applyAction_nil (action : GoString) (S : KeySet) : applyAction action [] S = S := by
  unfold applyAction
  split_ifs <;> rfl

/-- The loop over the identifier tags for one event: it returns, `knownKeys`
changes by the keys of the device, and `sync` runs once per key for `add`
and `remove`. -/
theorem idLoop_spec (dryRun : Bool) (action : GoString) (dev : Device) (w : deviceWatcher)
    (order : List (GoString × GoString)) :
    ∀ (S : KeySet) (world : World), storeReady w.canSync world →
    ∃ world', idLoop dryRun action dev order ({ w with knownKeys := S }, world)
        = some ({ w with knownKeys := applyAction action (deviceKeys w dev order) S }, world')
      ∧ storeReady w.canSync world'
      ∧ (w.canSync = false → world' = world)
      ∧ (w.canSync = true → world'.calls = world.calls
          + if action = ascii "add" ∨ action = ascii "remove"
            then (deviceKeys w dev order).length else 0)
      ∧ (deviceKeys w dev order = [] → world' = world)
      ∧ (w.canSync = true → dryRun = false → action = ascii "add" ∨ action = ascii "remove" →
          deviceKeys w dev order ≠ [] →
          reconciled (keyPrefix w) (applyAction action (deviceKeys w dev order) S) world') := by
  induction order with
  | nil =>
    intro S world hs
    refine ⟨world, ?_, hs, fun _ => rfl, fun _ => by simp [deviceKeys], fun _ => rfl,
      fun _ _ _ h => absurd rfl h⟩
    show some _ = some _
    rw [show deviceKeys w dev [] = [] from rfl, applyAction_nil]
  | cons tp rest ih =>
    intro S world hs
    obtain ⟨w1, h1, hs1, hoff1, hcalls1, hnil1, hrec1⟩ := idStep_spec dryRun action dev w S world tp hs
    obtain ⟨w2, h2, hs2, hoff2, hcalls2, hnil2, hrec2⟩ :=
      ih (applyAction action (deviceKeys w dev [tp]) S) w1 hs1
    refine ⟨w2, ?_, hs2, fun h => (hoff2 h).trans (hoff1 h), ?_, ?_, ?_⟩
    · unfold idLoop
      rw [h1]
      simp only
      rw [h2, deviceKeys_cons w dev tp rest, applyAction_append]
    · intro hc
      rw [hcalls2 hc, hcalls1 hc, deviceKeys_cons w dev tp rest, List.length_append]
      split_ifs <;> omega
    · intro h
      rw [deviceKeys_cons w dev tp rest, List.append_eq_nil] at h
      exact (hnil2 h.2).trans (hnil1 h.1)
    · intro hc hd ha hne
      rw [deviceKeys_cons w dev tp rest, applyAction_append]
      by_cases hr : deviceKeys w dev rest = []
      · rw [hr, applyAction_nil, hnil2 hr]
        apply hrec1 hc hd ha
        intro h1'
        apply hne
        rw [deviceKeys_cons w dev tp rest, h1', hr]
        rfl
      · exact hrec2 hc hd ha hr

theorem deviceKeys_length (w : deviceWatcher) (dev : Device)
    (order : List (GoString × GoString)) :
    (deviceKeys w dev order).length
      = (order.filter (fun tp => decide (propertyGet dev tp.2 ≠ []))).length := by
  induction order with
  | nil => rfl
  | cons tp rest ih =>
    rw [deviceKeys_cons, List.length_append, ih, List.filter_cons]
    by_cases hid : propertyGet dev tp.2 = []
    · simp [deviceKeys, hid]
    · obtain ⟨key, hkey⟩ := deviceKey_some w dev tp.1 (propertyGet dev tp.2)
      simp [deviceKeys, hid, hkey]
      omega

theorem deviceKeys_perm (w : deviceWatcher) (dev : Device)
    {o1 o2 : List (GoString × GoString)} (h : o1.Perm o2) :
    (deviceKeys w dev o1).Perm (deviceKeys w dev o2) :=
  List.Perm.filterMap _ h

/-- One pass of the loop over the events, for an event without the
baseline-complete marker. -/
theorem runStep_spec (dryRun : Bool) (w : deviceWatcher) (world : World) (ev : syncEvent)
    (order : List (GoString × GoString)) (hinit : ev.InitFinished = false) :
    (∀ event dev, ev.Event = some event → event.Device = some dev → w.Filter dev = true →
        runStep dryRun (w, world) (ev, order) = idLoop dryRun event.Action dev order (w, world))
      ∧ ((∀ event dev, ev.Event = some event → event.Device = some dev → w.Filter dev = false) →
        runStep dryRun (w, world) (ev, order) = some (w, world)) := by
  constructor
  · intro event dev he hd hf
    unfold runStep
    simp only [hinit, Bool.false_eq_true, if_false, he, hd, hf, Bool.not_true]
  · intro h
    unfold runStep
    simp only [hinit, Bool.false_eq_true, if_false]
    cases he : ev.Event with
    | none => rfl
    | some event =>
      cases hd : event.Device with
      | none => simp only [hd]
      | some dev =>
        simp only [hd, h event dev he hd, Bool.not_false, if_true]

/-- The calls of `sync` and the change of `knownKeys` of one pass. -/
theorem runStep_device (dryRun : Bool) (w : deviceWatcher) (world : World) (ev : syncEvent)
    (order : List (GoString × GoString)) (hinit : ev.InitFinished = false)
    (hs : storeReady w.canSync world) (hperm : order.Perm w.IdProperties) :
    ∃ S' world', runStep dryRun (w, world) (ev, order) = some ({ w with knownKeys := S' }, world')
      ∧ storeReady w.canSync world'
      ∧ (w.canSync = false → world' = world)
      ∧ (w.canSync = true → world'.calls = world.calls + expectedSyncs w ev) := by
  obtain ⟨hrun, hskip⟩ := runStep_spec dryRun w world ev order hinit
  by_cases hcase : ∃ event dev, ev.Event = some event ∧ event.Device = some dev
      ∧ w.Filter dev = true
  · obtain ⟨event, dev, he, hd, hf⟩ := hcase
    obtain ⟨world', h, hs', hoff, hcalls, _, _⟩ :=
      idLoop_spec dryRun event.Action dev w order w.knownKeys world hs
    refine ⟨_, world', (hrun event dev he hd hf).trans h, hs', hoff, ?_⟩
    intro hc
    rw [hcalls hc]
    unfold expectedSyncs
    simp only [he, hd, hf, true_and]
    rw [deviceKeys_length, (List.Perm.filter _ hperm).length_eq]
  · have hno : ∀ event dev, ev.Event = some event → event.Device = some dev →
        w.Filter dev = false := by
      intro event dev he hd
      cases hf : w.Filter dev with
      | false => rfl
      | true => exact absurd ⟨event, dev, he, hd, hf⟩ hcase
    refine ⟨w.knownKeys, world, hskip hno, hs, fun _ => rfl, ?_⟩
    intro _
    unfold expectedSyncs
    cases he : ev.Event with
    | none => rfl
    | some event =>
      cases hd : event.Device with
      | none => simp only [hd, Nat.add_zero]
      | some dev => simp [hd, hno event dev he hd]

/-- Before the baseline the loop over the events leaves the label store
alone. -/
theorem runLoop_before_baseline (dryRun : Bool) (w : deviceWatcher) (world : World)
    (hc : w.canSync = false) (events : List (syncEvent × List (GoString × GoString)))
    (hev : ∀ ev ∈ events, ev.1.InitFinished = false) :
    ∀ S : KeySet, ∃ S', runLoop dryRun events ({ w with knownKeys := S }, world)
      = some ({ w with knownKeys := S' }, world) := by
  induction events with
  | nil => exact fun S => ⟨S, rfl⟩
  | cons ev rest ih =>
    intro S
    have hinit := hev ev (List.mem_cons_self _ _)
    have hs : storeReady ({ w with knownKeys := S } : deviceWatcher).canSync world :=
      fun h => absurd (hc.symm.trans h) (by decide)
    obtain ⟨hrun, hskip⟩ := runStep_spec dryRun { w with knownKeys := S } world ev.1 ev.2 hinit
    have hstep : ∃ S1, runStep dryRun ({ w with knownKeys := S }, world) ev
        = some ({ w with knownKeys := S1 }, world) := by
      by_cases hcase : ∃ event dev, ev.1.Event = some event ∧ event.Device = some dev
          ∧ w.Filter dev = true
      · obtain ⟨event, dev, he, hd, hf⟩ := hcase
        obtain ⟨world', h, _, hoff, _⟩ :=
          idLoop_spec dryRun event.Action dev { w with knownKeys := S } ev.2 S world hs
        rw [hoff hc] at h
        exact ⟨_, (hrun event dev he hd hf).trans h⟩
      · refine ⟨S, hskip ?_⟩
        intro event dev he hd
        cases hf : w.Filter dev with
        | false => rfl
        | true => exact absurd ⟨event, dev, he, hd, hf⟩ hcase
    obtain ⟨S1, h1⟩ := hstep
    obtain ⟨S', h2⟩ := ih (fun e he => hev e (List.mem_cons_of_mem _ he)) S1
    refine ⟨S', ?_⟩
    unfold runLoop
    rw [h1]
    exact h2

/-- C5 (baseline gating): from a watcher whose `canSync` is false, over any
finite sequence of events none of which carries the baseline-complete marker,
whatever device events it holds and in whatever order the identifier tags are
visited, `Run` returns with the label store untouched: no call of
`nodeUpdateLabels` was made (the count of calls, the label map and the list of
updates are those of the start), and `canSync` is still false. -/
theorem Run_before_baseline (dryRun : Bool) (w : deviceWatcher) (world : World)
    (events : List (syncEvent × List (GoString × GoString)))
    (hc : w.canSync = false) (hev : ∀ ev ∈ events, ev.1.InitFinished = false) :
    ∃ w', Run dryRun w world events = some (w', world) ∧ w'.canSync = false := by
  obtain ⟨S', h⟩ := runLoop_before_baseline dryRun w world hc events hev []
  exact ⟨_, h, hc⟩

theorem foldl_mapDelete_get (ks : List GoString) (S : KeySet) (k : GoString) :
    mapGet (ks.foldl mapDelete S) k = if k ∈ ks then none else mapGet S k := by
  induction ks generalizing S with
  | nil => simp
  | cons a rest ih =>
    rw [List.foldl_cons, ih, mapGet_mapDelete]
    by_cases h1 : k ∈ rest
    · simp [h1]
    · by_cases h2 : k = a
      · simp [h2]
      · simp [h1, h2]

theorem foldl_mapDelete_append (ks : List GoString) (X S : KeySet)
    (hX : ∀ e ∈ X, e.1 ∈ ks) (hS : ∀ k ∈ ks, k ∉ S.map Prod.fst) :
    ks.foldl mapDelete (X ++ S) = S := by
  induction ks generalizing X with
  | nil =>
    cases X with
    | nil => rfl
    | cons e _ => exact absurd (hX e (List.mem_cons_self _ _)) (List.not_mem_nil _)
  | cons a rest ih =>
    rw [List.foldl_cons, mapDelete_append,
      mapDelete_of_not_mem S a (hS a (List.mem_cons_self _ _))]
    apply ih
    · intro e he
      unfold mapDelete at he
      rw [List.mem_filter] at he
      have hne : e.1 ≠ a := by simpa using he.2
      rcases List.mem_cons.mp (hX e he.1) with h | h
      · exact absurd h hne
      · exact h
    · exact fun k hk => hS k (List.mem_cons_of_mem _ hk)

theorem foldl_mapSet_append (ks all : List GoString) (X S : KeySet)
    (hks : ∀ k ∈ ks, k ∈ all) (hX : ∀ e ∈ X, e.1 ∈ all) (hS : ∀ k ∈ all, k ∉ S.map Prod.fst) :
    ∃ X', ks.foldl (fun S k => mapSet S k true) (X ++ S) = X' ++ S ∧ ∀ e ∈ X', e.1 ∈ all := by
  induction ks generalizing X with
  | nil => exact ⟨X, rfl, hX⟩
  | cons a rest ih =>
    have ha := hks a (List.mem_cons_self _ _)
    have hstep : mapSet (X ++ S) a true = ((a, true) :: mapDelete X a) ++ S := by
      unfold mapSet
      rw [mapDelete_append, mapDelete_of_not_mem S a (hS a ha)]
      rfl
    rw [List.foldl_cons, hstep]
    apply ih _ (fun k hk => hks k (List.mem_cons_of_mem _ hk))
    intro e he
    rcases List.mem_cons.mp he with h | h
    · rw [h]; exact ha
    · unfold mapDelete at h
      exact hX e (List.mem_filter.mp h).1

/-- Keys that were not in the set before are gone again once they have been
set and then deleted. -/
theorem add_then_remove (S : KeySet) (ks1 ks2 : List GoString) (hsub : ∀ k ∈ ks1, k ∈ ks2)
    (hfresh : ∀ k ∈ ks2, mapGet S k = none) :
    applyAction (ascii "remove") ks2 (applyAction (ascii "add") ks1 S) = S := by
  have hne : ascii "remove" ≠ ascii "add" := by decide
  unfold applyAction
  rw [if_pos rfl, if_neg hne, if_pos rfl]
  have hS : ∀ k ∈ ks2, k ∉ S.map Prod.fst := fun k hk => (mapGet_eq_none_iff S k).mp (hfresh k hk)
  obtain ⟨X', hX', hmem⟩ := foldl_mapSet_append ks1 ks2 [] S hsub
    (fun e he => absurd he (List.not_mem_nil _)) hS
  rw [List.nil_append] at hX'
  rw [hX']
  exact foldl_mapDelete_append ks2 X' S hmem hS

/-- C8 (amended): if `knownKeys` holds none of the keys of a device and, once
`canSync` is set, the label map of the node is allocated, then an `add` event
for the device followed by a `remove` event for the same device (whatever the
order in which each pass visits the identifier tags) returns and leaves
`knownKeys` as it was before the `add`. -/
theorem add_remove_symmetry (dryRun : Bool) (w : deviceWatcher) (world : World) (dev : Device)
    (ord1 ord2 : List (GoString × GoString))
    (hs : w.canSync = true → ∃ L, world.store = some L)
    (hp1 : ord1.Perm w.IdProperties) (hp2 : ord2.Perm w.IdProperties)
    (hfresh : ∀ k ∈ deviceKeys w dev w.IdProperties, mapGet w.knownKeys k = none) :
    ∃ w' world', runLoop dryRun [(addEvent dev, ord1), (removeEvent dev, ord2)] (w, world)
        = some (w', world') ∧ w'.knownKeys = w.knownKeys := by
  obtain ⟨hrun1, hskip1⟩ := runStep_spec dryRun w world (addEvent dev) ord1 rfl
  by_cases hf : w.Filter dev = true
  · obtain ⟨world1, h1, hs1, _⟩ :=
      idLoop_spec dryRun (ascii "add") dev w ord1 w.knownKeys world hs
    have e1 : runStep dryRun (w, world) (addEvent dev, ord1) = _ :=
      (hrun1 _ dev rfl rfl hf).trans h1
    obtain ⟨world2, h2, _⟩ :=
      idLoop_spec dryRun (ascii "remove") dev w ord2
        (applyAction (ascii "add") (deviceKeys w dev ord1) w.knownKeys) world1 hs1
    obtain ⟨hrun2, _⟩ := runStep_spec dryRun
      { w with knownKeys := applyAction (ascii "add") (deviceKeys w dev ord1) w.knownKeys }
      world1 (removeEvent dev) ord2 rfl
    have e2 := (hrun2 _ dev rfl rfl hf).trans h2
    generalize hS2 : applyAction (ascii "remove") (deviceKeys w dev ord2)
      (applyAction (ascii "add") (deviceKeys w dev ord1) w.knownKeys) = S2 at h2 e2
    refine ⟨{ w with knownKeys := S2 }, world2, ?_, ?_⟩
    · unfold runLoop
      rw [e1]
      simp only
      unfold runLoop
      rw [e2]
      rfl
    · show S2 = _
      rw [← hS2]
      apply add_then_remove
      · exact fun k hk => ((deviceKeys_perm w dev (hp1.trans hp2.symm)).mem_iff).mp hk
      · exact fun k hk => hfresh k (((deviceKeys_perm w dev hp2).mem_iff).mp hk)
  · have hf' : w.Filter dev = false := by simpa using hf
    have e1 := hskip1 (fun event d he hd => by
      cases he; cases hd; exact hf')
    obtain ⟨_, hskip2⟩ := runStep_spec dryRun w world (removeEvent dev) ord2 rfl
    have e2 := hskip2 (fun event d he hd => by
      cases he; cases hd; exact hf')
    refine ⟨w, world, ?_, rfl⟩
    unfold runLoop
    rw [e1]
    simp only
    unfold runLoop
    rw [e2]
    rfl

set_option maxRecDepth 100000 in
/-- C8 (amended) for the watcher of `main` after the baseline, knowing the
key of another disk, on a node that carries the host label and the label of
that disk; the two passes visit the tags in opposite orders. -/
theorem add_remove_symmetry_witness :
    (syncedWatcher.canSync = true → ∃ L, (⟨some syncedLabels, 0, []⟩ : World).store = some L)
      ∧ blockWatcher.IdProperties.reverse.Perm syncedWatcher.IdProperties
      ∧ (∀ k ∈ deviceKeys syncedWatcher twoIdDisk syncedWatcher.IdProperties,
          mapGet syncedWatcher.knownKeys k = none)
      ∧ ∃ w' world', runLoop false
            [(addEvent twoIdDisk, blockWatcher.IdProperties),
             (removeEvent twoIdDisk, blockWatcher.IdProperties.reverse)]
            (syncedWatcher, ⟨some syncedLabels, 0, []⟩) = some (w', world')
          ∧ w'.knownKeys = syncedWatcher.knownKeys :=
  ⟨fun _ => ⟨syncedLabels, rfl⟩, List.reverse_perm _, by decide,
    add_remove_symmetry false syncedWatcher ⟨some syncedLabels, 0, []⟩ twoIdDisk
      blockWatcher.IdProperties blockWatcher.IdProperties.reverse
      (fun _ => ⟨syncedLabels, rfl⟩) (List.Perm.refl _) (List.reverse_perm _) (by decide)⟩

set_option maxRecDepth 100000 in
/-- C8 as stated fails when `knownKeys` already holds the key of the device:
the `add` changes nothing, the `remove` deletes the key, and `knownKeys` ends
empty instead of holding the key as before. -/
theorem add_remove_known_key_counterexample :
    (runLoop false
        [(addEvent wwnDisk, blockWatcher.IdProperties),
         (removeEvent wwnDisk, blockWatcher.IdProperties)]
        ({ blockWatcher with knownKeys := [(wwnKey, true)] }, ⟨none, 0, []⟩)).map
          (fun r => r.1.knownKeys) = some []
      ∧ ([(wwnKey, true)] : KeySet) ≠ [] := by
  decide

/-! ## Key normalisation: length, character set, truncation -/

/-- What `validKey` returns on a raw key holding a `/`. -/
theorem validKey_spec (rawKey : GoString) (h : (0x2F : Byte) ∈ rawKey) :
    ∃ ns name n, cutSlash rawKey = some (ns, name) ∧ validName name = some n
      ∧ validKey rawKey = some (ns ++ ascii "/" ++ n)
      ∧ nameSegment (ns ++ ascii "/" ++ n) = some n
      ∧ n.length ≤ 63 ∧ ∀ b ∈ n, labelChar b := by
  obtain ⟨ns, name, hcut⟩ := cutSlash_of_mem rawKey h
  obtain ⟨n, hn, hlen, hchars⟩ := validName_spec name
  refine ⟨ns, name, n, hcut, hn, ?_, nameSegment_join ns n (cutSlash_some hcut).2, hlen, hchars⟩
  rw [validKey_of_cut hcut, hn]
  rfl

/-- C1 (length bound): for every raw key holding a `/`, `validKey` returns a
key whose name segment (everything after its first `/`) has at most 63 bytes,
whatever bytes the input name is made of. -/
theorem validKey_name_length (rawKey : GoString) (h : (0x2F : Byte) ∈ rawKey) :
    ∃ key name, validKey rawKey = some key ∧ nameSegment key = some name
      ∧ name.length ≤ 63 := by
  obtain ⟨ns, _, n, _, _, hkey, hseg, hlen, _⟩ := validKey_spec rawKey h
  exact ⟨_, n, hkey, hseg, hlen⟩

/-- C1 at a name of 32 two-byte characters. -/
theorem validKey_name_length_witness :
    (0x2F : Byte) ∈ ascii "ns/" ++ eAcuteName
      ∧ ∃ key name, validKey (ascii "ns/" ++ eAcuteName) = some key
          ∧ nameSegment key = some name ∧ name.length ≤ 63 :=
  ⟨by decide, validKey_name_length (ascii "ns/" ++ eAcuteName) (by decide)⟩

/-- C2 (character set): for every raw key holding a `/`, every byte of the
name segment of the key that `validKey` returns is in `[A-Za-z0-9_.-]`. -/
theorem validKey_name_charset (rawKey : GoString) (h : (0x2F : Byte) ∈ rawKey) :
    ∃ key name, validKey rawKey = some key ∧ nameSegment key = some name
      ∧ ∀ b ∈ name, labelChar b := by
  obtain ⟨ns, _, n, _, _, hkey, hseg, _, hchars⟩ := validKey_spec rawKey h
  exact ⟨_, n, hkey, hseg, hchars⟩

/-- C2 at a name with a second `/`, a space and a truncated two-byte
character. -/
theorem validKey_name_charset_witness :
    (0x2F : Byte) ∈ ascii "ns/a b/c" ++ [(0xC3 : Byte)]
      ∧ ∃ key name, validKey (ascii "ns/a b/c" ++ [(0xC3 : Byte)]) = some key
          ∧ nameSegment key = some name ∧ ∀ b ∈ name, labelChar b :=
  ⟨by decide, validKey_name_charset (ascii "ns/a b/c" ++ [(0xC3 : Byte)]) (by decide)⟩

set_option maxRecDepth 100000 in
/-- C9 as stated fails on a multi-byte name: the 64-byte name of 32 two-byte
characters is truncated, and the name segment returned has 35 bytes, not 63:
each two-byte character and the cut half of the 29th became a single `-`. -/
theorem validKey_multibyte_counterexample :
    63 < eAcuteName.length
      ∧ validKey (ascii "ns/" ++ eAcuteName)
          = some (ascii "ns/" ++ List.replicate 30 0x2D ++ ascii "sdiwc")
      ∧ (List.replicate 30 (0x2D : Byte) ++ ascii "sdiwc").length = 35 := by
  decide

/-- C9 (amended): for a raw key `ns/name` (`ns` without `/`) whose name has
more than 63 bytes, `validKey` returns `ns/` followed by the replacement of
`name[0:57]`, a `-`, and the lowercased first five characters of the base-32
encoding of the SHA-1 digest of the whole name; that segment has at most 63
bytes, and when `name[0:57]` is ASCII the replacement acts byte by byte and the
segment has exactly 63 bytes. For a name of at most 63 bytes the result is
`ns/` followed by the replacement of the name. -/
theorem validKey_truncation (ns name : GoString) (hns : (0x2F : Byte) ∉ ns) :
    (63 < name.length →
        validKey (ns ++ ascii "/" ++ name)
            = some (ns ++ ascii "/"
                ++ (ReplaceAllString (name.take 57) ++ ascii "-"
                  ++ ToLower ((EncodeToString (Sum name)).take 5)))
          ∧ (ToLower ((EncodeToString (Sum name)).take 5)).length = 5
          ∧ (ReplaceAllString (name.take 57) ++ ascii "-"
              ++ ToLower ((EncodeToString (Sum name)).take 5)).length ≤ 63
          ∧ ((∀ b ∈ name.take 57, b.val < 0x80) →
              ReplaceAllString (name.take 57) = (name.take 57).map dashByte
                ∧ (ReplaceAllString (name.take 57) ++ ascii "-"
                    ++ ToLower ((EncodeToString (Sum name)).take 5)).length = 63))
      ∧ (name.length ≤ 63 →
          validKey (ns ++ ascii "/" ++ name) = some (ns ++ ascii "/" ++ ReplaceAllString name)) := by
  have hcut : cutSlash (ns ++ ascii "/" ++ name) = some (ns, name) := by
    rw [ascii_slash, List.append_assoc, List.singleton_append, cutSlash_append ns name hns]
  constructor
  · intro hlen
    have h5 := hashSuffix_length name
    unfold hashSuffix at h5
    refine ⟨?_, h5, ?_, ?_⟩
    · rw [validKey_of_cut hcut, validName_long name hlen]
      rfl
    · have := replaceAll_length_le (name.take 57)
      simp only [List.length_append, h5, ascii_dash, List.length_cons,
        List.length_nil, List.length_take] at this ⊢
      omega
    · intro hascii
      have hmap := replaceAll_ascii (name.take 57) hascii
      refine ⟨hmap, ?_⟩
      rw [hmap]
      simp only [List.length_append, h5, ascii_dash, List.length_cons,
        List.length_nil, List.length_take, List.length_map]
      omega
  · intro hlen
    rw [validKey_of_cut hcut, validName_short name hlen]
    rfl

set_option maxRecDepth 100000 in
/-- C9 (amended) at the key of a 70-character serial number, an ASCII name of
84 bytes: 57 bytes of the name, `-` and five characters of the hash, 63 bytes
in all. -/
theorem validKey_truncation_witness :
    (0x2F : Byte) ∉ ascii "node-devices.alpha.kubernetes.io"
      ∧ 63 < longSerialName.length
      ∧ (∀ b ∈ longSerialName.take 57, b.val < 0x80)
      ∧ validKey (ascii "node-devices.alpha.kubernetes.io" ++ ascii "/" ++ longSerialName)
          = some (ascii "node-devices.alpha.kubernetes.io" ++ ascii "/"
              ++ (ReplaceAllString (longSerialName.take 57) ++ ascii "-"
                ++ ToLower ((EncodeToString (Sum longSerialName)).take 5)))
      ∧ (ReplaceAllString (longSerialName.take 57) ++ ascii "-"
          ++ ToLower ((EncodeToString (Sum longSerialName)).take 5)).length = 63 :=
  ⟨by decide, by decide, by decide,
    ((validKey_truncation (ascii "node-devices.alpha.kubernetes.io") longSerialName
      (by decide)).1 (by decide)).1,
    ((((validKey_truncation (ascii "node-devices.alpha.kubernetes.io") longSerialName
      (by decide)).1 (by decide)).2.2.2) (by decide)).2⟩

/-! ## Reconciliation: frame, result, idempotence -/

/-- C3 (frame): on a node whose label map `L` is allocated, with a key set
whose keys all start with the prefix, `nodeUpdateLabels` returns, and both the
label map it computes and the label map the store holds afterwards agree with
`L` on every key that does not start with the prefix. -/
theorem nodeUpdateLabels_frame (dryRun : Bool) (p : GoString) (K : KeySet) (v : GoString)
    (world : World) (L : Labels) (hL : world.store = some L)
    (hK : ∀ e ∈ K, HasPrefix e.1 p = true) :
    ∃ out L' S', nodeUpdateLabels dryRun p K v world = some out ∧ out.labels = some L'
      ∧ out.world.store = some S'
      ∧ (∀ k, HasPrefix k p = false → mapGet L' k = mapGet L k)
      ∧ (∀ k, HasPrefix k p = false → mapGet S' k = mapGet L k) := by
  have hframe : ∀ k, HasPrefix k p = false → mapGet (nodeLabelsLoops p K v L).1 k = mapGet L k := by
    intro k hk
    rw [loops_get]
    have h1 : k ∉ K.map Prod.fst := by
      intro hm
      obtain ⟨e, he, rfl⟩ := List.mem_map.mp hm
      rw [hK e he] at hk
      exact absurd hk (by decide)
    rw [if_neg h1, if_neg (by simp [hk])]
  rw [nodeUpdateLabels_some dryRun p K v world L hL]
  by_cases hc : (!(nodeLabelsLoops p K v L).2 || dryRun) = true
  · exact ⟨_, _, L, rfl, rfl, by rw [if_pos hc]; exact hL, hframe, fun _ _ => rfl⟩
  · exact ⟨_, _, (nodeLabelsLoops p K v L).1, rfl, rfl, by rw [if_neg hc], hframe, hframe⟩

/-- The result of the diff on a node whose label map `L` is allocated, with a
key set `K` (a `map[string]bool` whose entries are all `true`, as `knownKeys`
is): the label map that `nodeUpdateLabels` computes maps every key of `K` to
the value, holds no key under the prefix that is not in `K`, and `update` is
set exactly when that map differs from `L` at some key; the map is sent by
`knodes.Update` exactly when `update` is set outside dry-run mode. -/
theorem nodeUpdateLabels_result (dryRun : Bool) (p : GoString) (K : KeySet) (v : GoString)
    (world : World) (L : Labels) (hL : world.store = some L) (hK : ∀ e ∈ K, e.2 = true) :
    ∃ out L', nodeUpdateLabels dryRun p K v world = some out ∧ out.labels = some L'
      ∧ (∀ k ∈ K.map Prod.fst, mapGet L' k = some v)
      ∧ (∀ k, HasPrefix k p = true → k ∉ K.map Prod.fst → mapGet L' k = none)
      ∧ (out.update = true ↔ ∃ k, mapGet L' k ≠ mapGet L k)
      ∧ out.world.updates
          = if out.update = true ∧ dryRun = false then L' :: world.updates else world.updates := by
  rw [nodeUpdateLabels_some dryRun p K v world L hL]
  refine ⟨_, _, rfl, rfl, ?_, ?_, ?_, ?_⟩
  · intro k hk
    rw [loops_get, if_pos hk]
  · intro k hp hk
    rw [loops_get, if_neg hk]
    by_cases hkL : k ∈ L.map Prod.fst
    · have hg : keysGet K k = false := by
        simp [keysGet, (mapGet_eq_none_iff K k).mpr hk]
      rw [if_pos ⟨hkL, hp, hg⟩]
    · rw [if_neg (fun h => hkL h.1)]
      exact (mapGet_eq_none_iff L k).mpr hkL
  · show (nodeLabelsLoops p K v L).2 = true ↔ _
    constructor
    · intro hu
      unfold nodeLabelsLoops at hu
      have e : removeLoop p K (L.map Prod.fst) (L, false)
          = ((removeLoop p K (L.map Prod.fst) (L, false)).1,
             (removeLoop p K (L.map Prod.fst) (L, false)).2) := rfl
      rw [e, upsertLoop_flag, removeLoop_flag] at hu
      simp only [Bool.false_or, Bool.or_eq_true, List.any_eq_true, Bool.and_eq_true,
        Bool.not_eq_true', decide_eq_true_eq] at hu
      rcases hu with ⟨k, hkL, hp, hg⟩ | ⟨k, hkK, hne⟩
      · refine ⟨k, ?_⟩
        have hk : k ∉ K.map Prod.fst :=
          (mapGet_eq_none_iff K k).mp (keysGet_false_of_allTrue hK hg)
        rw [loops_get, if_neg hk, if_pos ⟨hkL, hp, hg⟩]
        intro h0
        exact (mapGet_eq_none_iff L k).mp h0.symm hkL
      · refine ⟨k, ?_⟩
        rw [loops_get, if_pos hkK]
        rw [removeLoop_get] at hne
        have hg := keysGet_true_of_mem hK hkK
        rw [if_neg (by simp [hg])] at hne
        exact fun h0 => hne h0.symm
    · rintro ⟨k, hk⟩
      by_contra hu
      have hu' : (nodeLabelsLoops p K v L).2 = false := by simpa using hu
      rw [loops_flag_false p K v L hu'] at hk
      exact hk rfl
  · show (if (!(nodeLabelsLoops p K v L).2 || dryRun) = true then _ else _ : World).updates = _
    cases (nodeLabelsLoops p K v L).2 <;> cases dryRun <;> simp

/-- C6 (idempotence): on a node whose label map is allocated, with a key set
`K` (entries all `true`), `nodeUpdateLabels` computes a label map `L'` such
that a further call against a store holding `L'` finds nothing to change:
`L'` is left as it is, `update` stays false and nothing but the fetch reaches
the store. Two calls in a row with the same arguments send at most one update:
the second sends none and leaves the store as the first left it. -/
theorem nodeUpdateLabels_idempotent (dryRun : Bool) (p : GoString) (K : KeySet) (v : GoString)
    (world : World) (L : Labels) (hL : world.store = some L) (hK : ∀ e ∈ K, e.2 = true) :
    ∃ out L', nodeUpdateLabels dryRun p K v world = some out ∧ out.labels = some L'
      ∧ (∀ world' : World, world'.store = some L' →
          nodeUpdateLabels dryRun p K v world'
            = some ⟨some L', false, { world' with calls := world'.calls + 1 }⟩)
      ∧ ∃ out2, nodeUpdateLabels dryRun p K v out.world = some out2
          ∧ out2.world.updates = out.world.updates ∧ out2.world.store = out.world.store
          ∧ out.world.updates.length ≤ world.updates.length + 1 := by
  have hfix := loops_fixed p K v L hK
  have hsecond : ∀ world' : World, world'.store = some (nodeLabelsLoops p K v L).1 →
      nodeUpdateLabels dryRun p K v world'
        = some ⟨some (nodeLabelsLoops p K v L).1, false,
            { world' with calls := world'.calls + 1 }⟩ := by
    intro world' hs
    rw [nodeUpdateLabels_some dryRun p K v world' _ hs, hfix]
    simp
  rw [nodeUpdateLabels_some dryRun p K v world L hL]
  refine ⟨_, _, rfl, rfl, hsecond, ?_⟩
  by_cases hc : (!(nodeLabelsLoops p K v L).2 || dryRun) = true
  · simp only [if_pos hc]
    rw [nodeUpdateLabels_some dryRun p K v
      { store := world.store, calls := world.calls + 1, updates := world.updates } L hL,
      if_pos hc]
    exact ⟨_, rfl, rfl, rfl, Nat.le_succ _⟩
  · simp only [if_neg hc]
    rw [hsecond _ rfl]
    exact ⟨_, rfl, rfl, rfl, by simp⟩

/-! ## Calls of sync per event -/

theorem mem_keys_iff {β : Type} (m : List (GoString × β)) (k : GoString) :
    k ∈ m.map Prod.fst ↔ mapGet m k ≠ none := by
  rw [ne_eq, mapGet_eq_none_iff, not_not]

theorem mem_keys_mapSet (S : KeySet) (k k' : GoString) (v : Bool) :
    k' ∈ (mapSet S k v).map Prod.fst ↔ k' = k ∨ k' ∈ S.map Prod.fst := by
  rw [mem_keys_iff, mem_keys_iff, mapGet_mapSet]
  by_cases h : k' = k
  · simp [h]
  · simp [h]

theorem allTrue_mapSet (S : KeySet) (k : GoString) (h : ∀ e ∈ S, e.2 = true) :
    ∀ e ∈ mapSet S k true, e.2 = true := by
  intro e he
  unfold mapSet mapDelete at he
  rcases List.mem_cons.mp he with he | he
  · rw [he]
  · exact h e (List.mem_filter.mp he).1

/-- A label map that matches the key set is left as it is by the loops. -/
theorem loops_quiet (p : GoString) (K : KeySet) (v : GoString) (L : Labels)
    (hK : ∀ e ∈ K, e.2 = true)
    (h1 : ∀ k, HasPrefix k p = true → k ∉ K.map Prod.fst → mapGet L k = none)
    (h2 : ∀ k ∈ K.map Prod.fst, mapGet L k = some v) :
    nodeLabelsLoops p K v L = (L, false) := by
  have hr : removeLoop p K (L.map Prod.fst) (L, false) = (L, false) := by
    apply removeLoop_unchanged
    intro k hk hp
    by_cases hkK : k ∈ K.map Prod.fst
    · exact keysGet_true_of_mem hK hkK
    · exact absurd hk ((mapGet_eq_none_iff L k).mp (h1 k hp hkK))
  unfold nodeLabelsLoops
  rw [hr]
  exact upsertLoop_unchanged v _ _ h2

/-- A `sync` against a store that matches `knownKeys` fetches and sends
nothing. -/
theorem sync_quiet (dryRun : Bool) (w : deviceWatcher) (world : World)
    (hc : w.canSync = true) (hK : ∀ e ∈ w.knownKeys, e.2 = true)
    (hr : reconciled (keyPrefix w) w.knownKeys world) :
    sync dryRun w world = some { world with calls := world.calls + 1 } := by
  obtain ⟨L, hL, h1, h2⟩ := hr
  unfold sync
  rw [hc, nodeUpdateLabels_some dryRun _ _ _ world L hL, loops_quiet _ _ _ L hK h1 h2]
  simp

theorem reconciled_congr {p : GoString} {S S' : KeySet} {world world' : World}
    (hmem : ∀ k, k ∈ S'.map Prod.fst ↔ k ∈ S.map Prod.fst) (hst : world'.store = world.store)
    (h : reconciled p S world) : reconciled p S' world' := by
  obtain ⟨L, hL, h1, h2⟩ := h
  exact ⟨L, hst.trans hL, fun k hp hk => h1 k hp (fun hm => hk ((hmem k).mpr hm)),
    fun k hk => h2 k ((hmem k).mp hk)⟩

/-- One pass over an identifier tag that changes no key: nothing is sent. -/
theorem idStep_quiet (dryRun : Bool) (action : GoString) (dev : Device) (w : deviceWatcher)
    (S : KeySet) (world : World) (tp : GoString × GoString)
    (hc : w.canSync = true) (hK : ∀ e ∈ S, e.2 = true)
    (hr : reconciled (keyPrefix w) S world)
    (hadd : action = ascii "add" → ∀ k ∈ deviceKeys w dev [tp], k ∈ S.map Prod.fst)
    (hrem : action = ascii "remove" → ∀ k ∈ deviceKeys w dev [tp], k ∉ S.map Prod.fst) :
    ∃ S' world', idStep dryRun action dev ({ w with knownKeys := S }, world) tp
        = some ({ w with knownKeys := S' }, world')
      ∧ world'.store = world.store ∧ world'.updates = world.updates
      ∧ (∀ k, k ∈ S'.map Prod.fst ↔ k ∈ S.map Prod.fst) ∧ (∀ e ∈ S', e.2 = true) := by
  unfold idStep
  by_cases hid : propertyGet dev tp.2 = []
  · simp only [hid, if_true]
    exact ⟨S, world, rfl, rfl, rfl, fun _ => Iff.rfl, hK⟩
  · obtain ⟨key, hkey⟩ := deviceKey_some w dev tp.1 (propertyGet dev tp.2)
    have hkey' : deviceKey ({ w with knownKeys := S }) dev tp.1 (propertyGet dev tp.2) = some key :=
      hkey
    have hk : deviceKeys w dev [tp] = [key] := by simp [deviceKeys, hid, hkey]
    simp only [hid, if_false, hkey']
    by_cases ha : action = ascii "add"
    · have hin : key ∈ S.map Prod.fst := hadd ha key (by rw [hk]; exact List.mem_singleton_self _)
      have hmem : ∀ k, k ∈ (mapSet S key true).map Prod.fst ↔ k ∈ S.map Prod.fst := by
        intro k
        rw [mem_keys_mapSet]
        constructor
        · rintro (h | h)
          · rw [h]; exact hin
          · exact h
        · exact Or.inr
      have hK' := allTrue_mapSet S key hK
      simp only [ha, if_true]
      rw [sync_quiet dryRun { w with knownKeys := mapSet S key true } world hc hK'
        (reconciled_congr hmem rfl hr)]
      exact ⟨_, _, rfl, rfl, rfl, hmem, hK'⟩
    · by_cases hrm : action = ascii "remove"
      · have hout : key ∉ S.map Prod.fst :=
          hrem hrm key (by rw [hk]; exact List.mem_singleton_self _)
        have hne : ascii "remove" ≠ ascii "add" := by decide
        simp only [hrm, hne, if_false, if_true, mapDelete_of_not_mem S key hout]
        rw [sync_quiet dryRun { w with knownKeys := S } world hc hK hr]
        exact ⟨_, _, rfl, rfl, rfl, fun _ => Iff.rfl, hK⟩
      · simp only [ha, hrm, if_false]
        exact ⟨S, world, rfl, rfl, rfl, fun _ => Iff.rfl, hK⟩

/-- The passes of an event that changes no key: nothing is sent. -/
theorem idLoop_quiet (dryRun : Bool) (action : GoString) (dev : Device) (w : deviceWatcher)
    (hc : w.canSync = true) (order : List (GoString × GoString)) :
    ∀ (S : KeySet) (world : World), (∀ e ∈ S, e.2 = true) →
    reconciled (keyPrefix w) S world →
    (action = ascii "add" → ∀ k ∈ deviceKeys w dev order, k ∈ S.map Prod.fst) →
    (action = ascii "remove" → ∀ k ∈ deviceKeys w dev order, k ∉ S.map Prod.fst) →
    ∃ S' world', idLoop dryRun action dev order ({ w with knownKeys := S }, world)
        = some ({ w with knownKeys := S' }, world')
      ∧ world'.store = world.store ∧ world'.updates = world.updates
      ∧ (∀ k, k ∈ S'.map Prod.fst ↔ k ∈ S.map Prod.fst) := by
  induction order with
  | nil => exact fun S world _ _ _ _ => ⟨S, world, rfl, rfl, rfl, fun _ => Iff.rfl⟩
  | cons tp rest ih =>
    intro S world hK hr hadd hrem
    have hsplit := deviceKeys_cons w dev tp rest
    obtain ⟨S1, world1, h1, hst1, hup1, hmem1, hK1⟩ :=
      idStep_quiet dryRun action dev w S world tp hc hK hr
        (fun ha k hk => hadd ha k (by rw [hsplit]; exact List.mem_append_left _ hk))
        (fun ha k hk => hrem ha k (by rw [hsplit]; exact List.mem_append_left _ hk))
    obtain ⟨S2, world2, h2, hst2, hup2, hmem2⟩ :=
      ih S1 world1 hK1 (reconciled_congr hmem1 hst1 hr)
        (fun ha k hk => (hmem1 k).mpr
          (hadd ha k (by rw [hsplit]; exact List.mem_append_right _ hk)))
        (fun ha k hk hm => hrem ha k (by rw [hsplit]; exact List.mem_append_right _ hk)
          ((hmem1 k).mp hm))
    refine ⟨S2, world2, ?_, hst2.trans hst1, hup2.trans hup1,
      fun k => (hmem2 k).trans (hmem1 k)⟩
    unfold idLoop
    rw [h1]
    exact h2

/-- C10 (amended): after the baseline (`canSync` set, label map allocated),
one pass of the loop for a device event returns, and the number of calls of
`nodeUpdateLabels` it makes is the number of identifier tags whose property is
not empty when the device passes the filter and the action is `add` or
`remove`, whether or not `knownKeys` changes; it is zero for an absent event
or device, a device failing the filter, or any other action. When the label
map of the store matches `knownKeys` (entries all `true`) and the event
changes no key of `knownKeys` (a second `add`, a `remove` of a key never
added), these calls find no difference: no update is sent, the label map of
the store is left as it was, and `knownKeys` holds the same keys. -/
theorem runStep_sync_count (dryRun : Bool) (w : deviceWatcher) (world : World) (L : Labels)
    (ev : syncEvent) (order : List (GoString × GoString))
    (hc : w.canSync = true) (hL : world.store = some L) (hinit : ev.InitFinished = false)
    (hperm : order.Perm w.IdProperties) :
    ∃ w' world', runStep dryRun (w, world) (ev, order) = some (w', world')
      ∧ world'.calls = world.calls + expectedSyncs w ev
      ∧ ((∀ e ∈ w.knownKeys, e.2 = true) → reconciled (keyPrefix w) w.knownKeys world →
          keysUnchanged w ev →
          world'.updates = world.updates ∧ world'.store = world.store
            ∧ ∀ k, k ∈ w'.knownKeys.map Prod.fst ↔ k ∈ w.knownKeys.map Prod.fst) := by
  have hs : storeReady w.canSync world := fun _ => ⟨L, hL⟩
  obtain ⟨S', world', h, _, _, hcalls⟩ := runStep_device dryRun w world ev order hinit hs hperm
  refine ⟨_, world', h, hcalls hc, ?_⟩
  intro hK hr hsame
  obtain ⟨hrun, hskip⟩ := runStep_spec dryRun w world ev order hinit
  by_cases hcase : ∃ event dev, ev.Event = some event ∧ event.Device = some dev
      ∧ w.Filter dev = true
  · obtain ⟨event, dev, he, hd, hf⟩ := hcase
    obtain ⟨hadd, hrem⟩ := hsame event dev he hd hf
    obtain ⟨S2, world2, h2, hst, hup, hmem⟩ :=
      idLoop_quiet dryRun event.Action dev w hc order w.knownKeys world hK hr
        (fun ha k hk => hadd ha k (((deviceKeys_perm w dev hperm).mem_iff).mp hk))
        (fun ha k hk => hrem ha k (((deviceKeys_perm w dev hperm).mem_iff).mp hk))
    have heq := h.symm.trans ((hrun event dev he hd hf).trans h2)
    simp only [Option.some.injEq, Prod.mk.injEq] at heq
    obtain ⟨hw, hwd⟩ := heq
    have hS : S' = S2 := congrArg deviceWatcher.knownKeys hw
    subst hS; subst hwd
    exact ⟨hup, hst, hmem⟩
  · have hno : ∀ event dev, ev.Event = some event → event.Device = some dev →
        w.Filter dev = false := by
      intro event dev he hd
      cases hf : w.Filter dev with
      | false => rfl
      | true => exact absurd ⟨event, dev, he, hd, hf⟩ hcase
    have heq := h.symm.trans (hskip hno)
    simp only [Option.some.injEq, Prod.mk.injEq] at heq
    obtain ⟨hw, hwd⟩ := heq
    have hS : S' = w.knownKeys := congrArg deviceWatcher.knownKeys hw
    subst hwd
    rw [hS]
    exact ⟨rfl, rfl, fun _ => Iff.rfl⟩

set_option maxRecDepth 100000 in
/-- The label map with the host label and the label of `wwnDisk` matches the
key set that holds the key of `wwnDisk`. -/
theorem syncedLabels_reconciled :
    reconciled (keyPrefix syncedWatcher) syncedWatcher.knownKeys ⟨some syncedLabels, 0, []⟩ := by
  refine ⟨syncedLabels, rfl, ?_, by decide⟩
  intro k hp hk
  unfold syncedLabels
  simp only [mapGet]
  by_cases e1 : ascii "kubernetes.io/hostname" = k
  · subst e1
    exact absurd hp (by decide)
  · rw [if_neg e1]
    by_cases e2 : wwnKey = k
    · subst e2
      exact absurd (List.mem_singleton_self _) hk
    · rw [if_neg e2]

set_option maxRecDepth 100000 in
/-- A second `add` of `wwnDisk` changes no key of the watcher that knows its
key. -/
theorem keysUnchanged_second_add : keysUnchanged syncedWatcher (addEvent wwnDisk) := by
  intro event dev he hd _
  cases he
  cases hd
  exact ⟨fun _ => by decide, fun h => absurd h (by decide)⟩

set_option maxRecDepth 100000 in
/-- C10 (amended) at a second `add` of a disk whose key is known and
labelled: one call, no update, store and keys as before; and at an `add` of a
disk with two identifiers: two calls. -/
theorem runStep_sync_count_witness :
    syncedWatcher.canSync = true
      ∧ (∀ e ∈ syncedWatcher.knownKeys, e.2 = true)
      ∧ expectedSyncs syncedWatcher (addEvent wwnDisk) = 1
      ∧ (∃ w' world', runStep false (syncedWatcher, ⟨some syncedLabels, 0, []⟩)
            (addEvent wwnDisk, blockWatcher.IdProperties) = some (w', world')
          ∧ world'.calls = 0 + expectedSyncs syncedWatcher (addEvent wwnDisk)
          ∧ world'.updates = [] ∧ world'.store = some syncedLabels
          ∧ ∀ k, k ∈ w'.knownKeys.map Prod.fst ↔ k ∈ syncedWatcher.knownKeys.map Prod.fst)
      ∧ expectedSyncs { blockWatcher with canSync := true } (addEvent twoIdDisk) = 2
      ∧ ∃ w' world', runStep false ({ blockWatcher with canSync := true }, ⟨some hostLabels, 0, []⟩)
            (addEvent twoIdDisk, blockWatcher.IdProperties) = some (w', world')
          ∧ world'.calls
            = 0 + expectedSyncs { blockWatcher with canSync := true } (addEvent twoIdDisk) := by
  obtain ⟨w1, world1, h1, hcalls1, hquiet⟩ :=
    runStep_sync_count false syncedWatcher ⟨some syncedLabels, 0, []⟩ syncedLabels
      (addEvent wwnDisk) blockWatcher.IdProperties rfl rfl rfl (List.Perm.refl _)
  obtain ⟨w2, world2, h2, hcalls2, _⟩ :=
    runStep_sync_count false { blockWatcher with canSync := true } ⟨some hostLabels, 0, []⟩
      hostLabels (addEvent twoIdDisk) blockWatcher.IdProperties rfl rfl rfl (List.Perm.refl _)
  have hK : ∀ e ∈ syncedWatcher.knownKeys, e.2 = true := by decide
  obtain ⟨hup, hst, hmem⟩ := hquiet hK syncedLabels_reconciled keysUnchanged_second_add
  exact ⟨rfl, hK, by decide, ⟨w1, world1, h1, hcalls1, hup, hst, hmem⟩, by decide,
    ⟨w2, world2, h2, hcalls2⟩⟩

set_option maxRecDepth 100000 in
/-- C10 as stated fails twice. A second `add` of a key that `knownKeys`
already holds leaves `knownKeys` unchanged and still makes one call of
`nodeUpdateLabels`, not zero. An `add` of a disk with two identifiers makes
two calls, not one. -/
theorem duplicate_add_counterexample :
    (runStep false (syncedWatcher, ⟨some syncedLabels, 0, []⟩)
        (addEvent wwnDisk, blockWatcher.IdProperties)).map (fun r => (r.1.knownKeys, r.2.calls))
        = some ([(wwnKey, true)], 1)
      ∧ (runStep false ({ blockWatcher with canSync := true }, ⟨some hostLabels, 0, []⟩)
          (addEvent twoIdDisk, blockWatcher.IdProperties)).map (fun r => r.2.calls) = some 2 := by
  refine ⟨by decide, ?_⟩
  decide

/-! ## Removal of the labels of a removed device -/

/-- A name that starts with at most 57 bytes of `[A-Za-z0-9_.-]` and a `-`
keeps them at its head through `validKey`: the truncation cuts behind byte 57
and puts a `-` there. -/
theorem validName_keeps_head (A X : GoString) (hA : ∀ b ∈ A, labelChar b)
    (hlen : A.length ≤ 57) :
    ∃ n, validName (A ++ ascii "-" ++ X) = some (A ++ ascii "-" ++ n) := by
  have hdash : ∀ b ∈ A ++ ascii "-", labelChar b := by
    intro b hb
    rcases List.mem_append.mp hb with hb | hb
    · exact hA b hb
    · rw [ascii_dash] at hb
      simp at hb; rw [hb]; decide
  by_cases h : 63 < (A ++ ascii "-" ++ X).length
  · by_cases h57 : A.length = 57
    · refine ⟨hashSuffix (A ++ ascii "-" ++ X), ?_⟩
      rw [validName_long _ h, List.append_assoc A, List.take_append_eq_append_take,
        List.take_of_length_le hlen, h57, Nat.sub_self, List.take_zero, List.append_nil,
        replaceAll_of_labelChar A hA]
    · refine ⟨ReplaceAllString (X.take (57 - (A ++ ascii "-").length)) ++ ascii "-"
        ++ hashSuffix (A ++ ascii "-" ++ X), ?_⟩
      have hl : (A ++ ascii "-").length ≤ 57 := by
        rw [List.length_append, ascii_dash]; simp; omega
      rw [validName_long _ h, List.take_append_eq_append_take, List.take_of_length_le hl,
        replaceAll_labelChar_append _ _ hdash]
      simp only [List.append_assoc]
  · refine ⟨ReplaceAllString X, ?_⟩
    rw [validName_short _ (by omega), replaceAll_labelChar_append _ _ hdash]

/-- Under a prefix without `/` and a subsystem of at most 57 bytes of
`[A-Za-z0-9_.-]`, every key that `Run` derives starts with `keyPrefix()`. -/
theorem deviceKey_hasPrefix (w : deviceWatcher) (hP : (0x2F : Byte) ∉ w.Prefix)
    (hS : ∀ b ∈ w.Subsystem, labelChar b) (hlen : w.Subsystem.length ≤ 57)
    (dev : Device) (tag id : GoString) :
    ∃ key, deviceKey w dev tag id = some key ∧ HasPrefix key (keyPrefix w) = true := by
  obtain ⟨n, hn⟩ := validName_keeps_head w.Subsystem
    (dev.DevType ++ ascii "-" ++ tag ++ ascii "-" ++ id) hS hlen
  have hraw : keyPrefix w ++ dev.DevType ++ ascii "-" ++ tag ++ ascii "-" ++ id
      = w.Prefix ++ (0x2F : Byte) :: (w.Subsystem ++ ascii "-"
          ++ (dev.DevType ++ ascii "-" ++ tag ++ ascii "-" ++ id)) := by
    simp [keyPrefix, ascii_slash, List.append_assoc]
  have hcut := cutSlash_append w.Prefix (w.Subsystem ++ ascii "-"
    ++ (dev.DevType ++ ascii "-" ++ tag ++ ascii "-" ++ id)) hP
  refine ⟨keyPrefix w ++ n, ?_, ?_⟩
  · unfold deviceKey
    rw [hraw, validKey_of_cut hcut, hn]
    simp [keyPrefix, List.append_assoc]
  · unfold HasPrefix
    exact List.isPrefixOf_iff_prefix.mpr ⟨n, rfl⟩

theorem mem_deviceKeys {w : deviceWatcher} {dev : Device} {order : List (GoString × GoString)}
    {k : GoString} (h : k ∈ deviceKeys w dev order) :
    ∃ tag id, deviceKey w dev tag id = some k := by
  unfold deviceKeys at h
  obtain ⟨tp, _, htp⟩ := List.mem_filterMap.mp h
  by_cases hid : propertyGet dev tp.2 = []
  · simp [hid] at htp
  · rw [if_neg hid] at htp
    exact ⟨_, _, htp⟩

/-- C7 (amended): for a watcher whose `Prefix` holds no `/` and whose
`Subsystem` is at most 57 bytes of `[A-Za-z0-9_.-]` (as the watcher of `main`
is), every key that `Run` derives for a device starts with `keyPrefix()`, so
on a node whose label map is allocated
`nodeUpdateLabels(keyPrefix(), K, "present")` with the key not in `K` computes
a label map without it; and after the baseline, outside dry-run mode, on a
node whose label map is allocated, the pass of a `remove` event of a device
passing the filter leaves every key of the device out of `knownKeys` and out
of the label map of the store. -/
theorem removed_device_labels_deleted (w : deviceWatcher) (hP : (0x2F : Byte) ∉ w.Prefix)
    (hS : ∀ b ∈ w.Subsystem, labelChar b) (hlen : w.Subsystem.length ≤ 57) :
    (∀ (dev : Device) (tag id : GoString), ∃ key, deviceKey w dev tag id = some key
        ∧ HasPrefix key (keyPrefix w) = true
        ∧ ∀ (dryRun : Bool) (K : KeySet) (world : World) (L : Labels),
            world.store = some L → key ∉ K.map Prod.fst →
            ∃ out L', nodeUpdateLabels dryRun (keyPrefix w) K (ascii "present") world = some out
              ∧ out.labels = some L' ∧ mapGet L' key = none)
      ∧ (∀ (world : World) (L : Labels) (dev : Device) (order : List (GoString × GoString)),
          w.canSync = true → world.store = some L → w.Filter dev = true →
          order.Perm w.IdProperties →
          ∃ w' world' L', runStep false (w, world) (removeEvent dev, order) = some (w', world')
            ∧ world'.store = some L'
            ∧ ∀ k ∈ deviceKeys w dev w.IdProperties,
                mapGet w'.knownKeys k = none ∧ mapGet L' k = none) := by
  constructor
  · intro dev tag id
    obtain ⟨key, hkey, hpre⟩ := deviceKey_hasPrefix w hP hS hlen dev tag id
    refine ⟨key, hkey, hpre, ?_⟩
    intro dryRun K world L hL hk
    rw [nodeUpdateLabels_some dryRun _ K _ world L hL]
    exact ⟨_, _, rfl, rfl, loops_no_stale _ K _ L key hpre hk⟩
  · intro world L dev order hc hL hf hperm
    have hs : storeReady w.canSync world := fun _ => ⟨L, hL⟩
    obtain ⟨hrun, _⟩ := runStep_spec false w world (removeEvent dev) order rfl
    obtain ⟨world', h, hs', _, _, hnil, hrec⟩ :=
      idLoop_spec false (ascii "remove") dev w order w.knownKeys world hs
    obtain ⟨L', hL'⟩ := hs' hc
    generalize hS' : applyAction (ascii "remove") (deviceKeys w dev order) w.knownKeys = S' at h hrec
    refine ⟨{ w with knownKeys := S' }, world', L', (hrun _ dev rfl rfl hf).trans h, hL', ?_⟩
    intro k hk
    have hk' : k ∈ deviceKeys w dev order := ((deviceKeys_perm w dev hperm).mem_iff).mpr hk
    have hne : ascii "remove" ≠ ascii "add" := by decide
    have hgone : mapGet S' k = none := by
      rw [← hS']
      unfold applyAction
      rw [if_neg hne, if_pos rfl, foldl_mapDelete_get, if_pos hk']
    refine ⟨hgone, ?_⟩
    obtain ⟨L2, hL2, hstale, _⟩ := hrec hc rfl (Or.inr rfl) (List.ne_nil_of_mem hk')
    rw [hL'] at hL2
    cases hL2
    obtain ⟨tag, id, hkey⟩ := mem_deviceKeys hk
    obtain ⟨key, hkey', hpre⟩ := deviceKey_hasPrefix w hP hS hlen dev tag id
    rw [hkey] at hkey'
    cases hkey'
    exact hstale k hpre ((mapGet_eq_none_iff S' k).mp hgone)

set_option maxRecDepth 100000 in
/-- C7 (amended) at the watcher of `main` after the baseline, knowing the key
of `wwnDisk`, on a node that carries the host label and the label of the
disk: the key starts with `keyPrefix()`, a reconciliation without the key
computes a label map without it, and the pass of the `remove` event leaves
the key out of `knownKeys` and out of the label map of the store. -/
theorem removed_device_labels_deleted_witness :
    (0x2F : Byte) ∉ syncedWatcher.Prefix ∧ (∀ b ∈ syncedWatcher.Subsystem, labelChar b)
      ∧ syncedWatcher.Subsystem.length ≤ 57
      ∧ syncedWatcher.canSync = true ∧ syncedWatcher.Filter wwnDisk = true
      ∧ (∃ key, deviceKey syncedWatcher wwnDisk (ascii "wwn") (ascii "0x5000c500a1b2c3d4")
            = some key
          ∧ HasPrefix key (keyPrefix syncedWatcher) = true
          ∧ ∃ out L', nodeUpdateLabels false (keyPrefix syncedWatcher) [] (ascii "present")
                ⟨some syncedLabels, 0, []⟩ = some out
              ∧ out.labels = some L' ∧ mapGet L' key = none)
      ∧ ∃ w' world' L', runStep false (syncedWatcher, ⟨some syncedLabels, 0, []⟩)
            (removeEvent wwnDisk, blockWatcher.IdProperties) = some (w', world')
          ∧ world'.store = some L'
          ∧ ∀ k ∈ deviceKeys syncedWatcher wwnDisk syncedWatcher.IdProperties,
              mapGet w'.knownKeys k = none ∧ mapGet L' k = none := by
  have h := removed_device_labels_deleted syncedWatcher (by decide) (by decide) (by decide)
  refine ⟨by decide, by decide, by decide, rfl, by decide, ?_, ?_⟩
  · obtain ⟨key, hk, hp, hrm⟩ := h.1 wwnDisk (ascii "wwn") (ascii "0x5000c500a1b2c3d4")
    exact ⟨key, hk, hp,
      hrm false [] ⟨some syncedLabels, 0, []⟩ syncedLabels rfl (List.not_mem_nil _)⟩
  · exact h.2 ⟨some syncedLabels, 0, []⟩ syncedLabels wwnDisk blockWatcher.IdProperties
      rfl rfl (by decide) (List.Perm.refl _)

set_option maxRecDepth 100000 in
/-- C7 as stated fails outside the three conditions of the amended claim.
With `Prefix = "a/b"` the key of the disk is `a/b-block-disk-wwn-...`, with
`Subsystem = "my sub"` it is `.../my-sub-disk-wwn-...`, and with a `Subsystem`
of 58 bytes it is cut at byte 57: none starts with `keyPrefix()`. In each case,
after the `add` and the `remove` of the disk on a node with its host label,
`knownKeys` is empty and the label of the disk is still in the store next to
the host label. -/
theorem slash_prefix_counterexample :
    deviceKey slashWatcher wwnDisk (ascii "wwn") (ascii "0x5000c500a1b2c3d4")
        = some (ascii "a/b-block-disk-wwn-0x5000c500a1b2c3d4")
      ∧ HasPrefix (ascii "a/b-block-disk-wwn-0x5000c500a1b2c3d4") (keyPrefix slashWatcher) = false
      ∧ (runLoop false
          [(addEvent wwnDisk, slashWatcher.IdProperties),
           (removeEvent wwnDisk, slashWatcher.IdProperties)]
          (slashWatcher, ⟨some hostLabels, 0, []⟩)).map (fun r => (r.1.knownKeys, r.2.store))
        = some ([], some ((ascii "a/b-block-disk-wwn-0x5000c500a1b2c3d4", ascii "present")
            :: hostLabels))
      ∧ deviceKey spaceWatcher wwnDisk (ascii "wwn") (ascii "0x5000c500a1b2c3d4")
        = some (ascii "node-devices.alpha.kubernetes.io/my-sub-disk-wwn-0x5000c500a1b2c3d4")
      ∧ HasPrefix (ascii "node-devices.alpha.kubernetes.io/my-sub-disk-wwn-0x5000c500a1b2c3d4")
          (keyPrefix spaceWatcher) = false
      ∧ (runLoop false
          [(addEvent wwnDisk, spaceWatcher.IdProperties),
           (removeEvent wwnDisk, spaceWatcher.IdProperties)]
          (spaceWatcher, ⟨some hostLabels, 0, []⟩)).map (fun r => (r.1.knownKeys, r.2.store))
        = some ([], some
            ((ascii "node-devices.alpha.kubernetes.io/my-sub-disk-wwn-0x5000c500a1b2c3d4",
              ascii "present") :: hostLabels))
      ∧ (deviceKey longWatcher wwnDisk (ascii "wwn") (ascii "0x5000c500a1b2c3d4")).map
          (fun key => (key.length, HasPrefix key (keyPrefix longWatcher)))
        = some (33 + 63, false)
      ∧ (runLoop false
          [(addEvent wwnDisk, longWatcher.IdProperties),
           (removeEvent wwnDisk, longWatcher.IdProperties)]
          (longWatcher, ⟨some hostLabels, 0, []⟩)).map
            (fun r => (r.1.knownKeys, r.2.store.map (fun L => L.map Prod.snd)))
        = some ([], some [ascii "present", ascii "n1"]) := by
  refine ⟨by decide, by decide, by decide, by decide, by decide, by decide, by decide, ?_⟩
  decide

/-! ## The statements at sample inputs -/

set_option maxRecDepth 100000 in
/-- Scenario B of the specification: the key of a 70-character serial number
is cut to 57 bytes of the name, `-`, and five characters of the hash. -/
theorem validKey_longSerialKey :
    validKey longSerialKey
      = some (ascii "node-devices.alpha.kubernetes.io/block-disk-sn-0123456789012345678901234567890123456789012-3mzdz") := by
  decide

set_option maxRecDepth 100000 in
/-- C3 at a node with a host label, a stale label of the watcher and one
known key. -/
theorem nodeUpdateLabels_frame_witness :
    (∀ e ∈ ([(wwnKey, true)] : KeySet), HasPrefix e.1 (keyPrefix blockWatcher) = true)
      ∧ ∃ out L' S', nodeUpdateLabels false (keyPrefix blockWatcher) [(wwnKey, true)]
            (ascii "present")
            ⟨some [(ascii "kubernetes.io/hostname", ascii "n1"),
              (ascii "node-devices.alpha.kubernetes.io/block-disk-sn-S123", ascii "present")],
              0, []⟩ = some out
          ∧ out.labels = some L' ∧ out.world.store = some S'
          ∧ (∀ k, HasPrefix k (keyPrefix blockWatcher) = false → mapGet L' k
              = mapGet [(ascii "kubernetes.io/hostname", ascii "n1"),
                (ascii "node-devices.alpha.kubernetes.io/block-disk-sn-S123", ascii "present")] k)
          ∧ (∀ k, HasPrefix k (keyPrefix blockWatcher) = false → mapGet S' k
              = mapGet [(ascii "kubernetes.io/hostname", ascii "n1"),
                (ascii "node-devices.alpha.kubernetes.io/block-disk-sn-S123", ascii "present")] k) :=
  ⟨by decide,
    nodeUpdateLabels_frame false (keyPrefix blockWatcher) [(wwnKey, true)] (ascii "present")
      ⟨some [(ascii "kubernetes.io/hostname", ascii "n1"),
        (ascii "node-devices.alpha.kubernetes.io/block-disk-sn-S123", ascii "present")], 0, []⟩
      _ rfl (by decide)⟩

set_option maxRecDepth 100000 in
/-- The result of the diff at a node with a host label, a stale label of the
watcher and one known key. -/
theorem nodeUpdateLabels_result_witness :
    (∀ e ∈ ([(wwnKey, true)] : KeySet), e.2 = true)
      ∧ ∃ out L', nodeUpdateLabels false (keyPrefix blockWatcher) [(wwnKey, true)]
            (ascii "present")
            ⟨some [(ascii "kubernetes.io/hostname", ascii "n1"),
              (ascii "node-devices.alpha.kubernetes.io/block-disk-sn-S123", ascii "present")],
              0, []⟩ = some out
          ∧ out.labels = some L'
          ∧ (∀ k ∈ ([(wwnKey, true)] : KeySet).map Prod.fst, mapGet L' k = some (ascii "present"))
          ∧ (∀ k, HasPrefix k (keyPrefix blockWatcher) = true →
              k ∉ ([(wwnKey, true)] : KeySet).map Prod.fst → mapGet L' k = none)
          ∧ (out.update = true ↔ ∃ k, mapGet L' k
              ≠ mapGet [(ascii "kubernetes.io/hostname", ascii "n1"),
                (ascii "node-devices.alpha.kubernetes.io/block-disk-sn-S123", ascii "present")] k)
          ∧ out.world.updates
              = if out.update = true ∧ false = false then L' :: [] else [] :=
  ⟨by decide,
    nodeUpdateLabels_result false (keyPrefix blockWatcher) [(wwnKey, true)] (ascii "present")
      ⟨some [(ascii "kubernetes.io/hostname", ascii "n1"),
        (ascii "node-devices.alpha.kubernetes.io/block-disk-sn-S123", ascii "present")], 0, []⟩
      _ rfl (by decide)⟩

set_option maxRecDepth 100000 in
/-- C5 at the watcher of `main` with an `add`, an unknown action and a
`remove` queued before the baseline. -/
theorem Run_before_baseline_witness :
    blockWatcher.canSync = false
      ∧ (∀ ev ∈ [(addEvent twoIdDisk, blockWatcher.IdProperties),
            ((⟨false, some ⟨ascii "change", some wwnDisk⟩⟩ : syncEvent), blockWatcher.IdProperties),
            (removeEvent wwnDisk, blockWatcher.IdProperties.reverse)],
          ev.1.InitFinished = false)
      ∧ ∃ w', Run true blockWatcher ⟨some [], 0, []⟩
            [(addEvent twoIdDisk, blockWatcher.IdProperties),
              ((⟨false, some ⟨ascii "change", some wwnDisk⟩⟩ : syncEvent), blockWatcher.IdProperties),
              (removeEvent wwnDisk, blockWatcher.IdProperties.reverse)]
            = some (w', ⟨some [], 0, []⟩)
          ∧ w'.canSync = false :=
  ⟨rfl, by decide,
    Run_before_baseline true blockWatcher ⟨some [], 0, []⟩ _ rfl (by decide)⟩

set_option maxRecDepth 100000 in
/-- C6 at a node with a stale label of the watcher and one known key. -/
theorem nodeUpdateLabels_idempotent_witness :
    (∀ e ∈ ([(wwnKey, true)] : KeySet), e.2 = true)
      ∧ ∃ out L', nodeUpdateLabels false (keyPrefix blockWatcher) [(wwnKey, true)]
            (ascii "present")
            ⟨some [(ascii "node-devices.alpha.kubernetes.io/block-disk-sn-S123", ascii "present")],
              0, []⟩ = some out
          ∧ out.labels = some L'
          ∧ (∀ world' : World, world'.store = some L' →
              nodeUpdateLabels false (keyPrefix blockWatcher) [(wwnKey, true)] (ascii "present")
                world' = some ⟨some L', false, { world' with calls := world'.calls + 1 }⟩)
          ∧ ∃ out2, nodeUpdateLabels false (keyPrefix blockWatcher) [(wwnKey, true)]
                (ascii "present") out.world = some out2
              ∧ out2.world.updates = out.world.updates ∧ out2.world.store = out.world.store
              ∧ out.world.updates.length ≤ ([] : List Labels).length + 1 :=
  ⟨by decide,
    nodeUpdateLabels_idempotent false (keyPrefix blockWatcher) [(wwnKey, true)] (ascii "present")
      ⟨some [(ascii "node-devices.alpha.kubernetes.io/block-disk-sn-S123", ascii "present")],
        0, []⟩ _ rfl (by decide)⟩

set_option maxRecDepth 100000 in
/-- C4 fails on a node without labels, whose `Labels` map `knodes.Get`
returns nil: with one known key the assignment `node.Labels[key] = value`
panics, and no label map sending the key to the value is computed. At the
start of the watcher of `main` with one disk present, the sync of the
baseline-complete marker ends `Run` in that panic. With an empty key set the
call returns and leaves the nil map as it is. -/
theorem nodeUpdateLabels_nil_labels :
    nodeUpdateLabels false (keyPrefix blockWatcher) [(wwnKey, true)] (ascii "present")
        ⟨none, 0, []⟩ = none
      ∧ (Run false blockWatcher ⟨none, 0, []⟩
          [(addEvent wwnDisk, blockWatcher.IdProperties),
           ((⟨true, none⟩ : syncEvent), blockWatcher.IdProperties)]).isNone = true
      ∧ nodeUpdateLabels false (keyPrefix blockWatcher) [] (ascii "present") ⟨none, 0, []⟩
        = some ⟨none, false, ⟨none, 1, []⟩⟩ := by
  refine ⟨by decide, by decide, ?_⟩
  decide

end KubeHwTagger
